import Mathlib

/-!
Verification of the `primes` Rust library (`src/lib.rs`).

The development shallowly embeds the library in Lean:

* `u64` values are modelled as `Nat` (no arithmetic in the verified claims
  comes near the 2^64 boundary, and the source does no wrapping arithmetic);
* unbounded `loop`/`while` constructs are modelled as fuel-indexed functions
  returning `Option`; `none` models a panic or non-termination of the Rust
  code, and the baked-in fuel is proven sufficient on all reachable states;
* the `BinaryHeap<Reverse<(u64, u64)>>` of `Sieve` is modelled as a list kept
  sorted by the lexicographic order on pairs: `peek`/`pop` of the Rust heap
  observe exactly the minimum, which is the head of the sorted list.

Definitions come first, then the theorems.
-/

namespace Primes

/-- The table `WHEEL30` from the source: residues mod 30 coprime to 30. -/
def WHEEL30 : List Nat := [1, 7, 11, 13, 17, 19, 23, 29]

/-- State of the `Wheel30` stepper: `base` and index `ix` into `WHEEL30`. -/
structure Wheel30 where
  base : Nat
  ix : Nat

/-- `Wheel30::next`: return `base + WHEEL30[ix]`, advance `ix`, wrapping to
`ix = 0` and `base + 30`.  The source indexes `WHEEL30[self.ix]`, which would
panic for `ix ≥ 8`; reachable states always have `ix < 8`, where `getD` agrees
with the panicking index. -/
def Wheel30.next (w : Wheel30) : Nat × Wheel30 :=
  let value := w.base + WHEEL30.getD w.ix 0
  if w.ix + 1 ≥ WHEEL30.length then (value, ⟨w.base + 30, 0⟩)
  else (value, ⟨w.base, w.ix + 1⟩)

/-- The value the wheel will emit next (spec-side shorthand). -/
def Wheel30.value (w : Wheel30) : Nat := w.base + WHEEL30.getD w.ix 0

/-- A wheel state reachable from the seeded or default constructors. -/
def Wheel30.Valid (w : Wheel30) : Prop := w.base % 30 = 0 ∧ w.ix < 8

/-- The `TrialDivision` engine: just the list of primes found so far. -/
structure TrialDivision where
  lst : List Nat

/-- `TrialDivision::new`, primed with 2 and 3. -/
def TrialDivision.new : TrialDivision := ⟨[2, 3]⟩

/-- `TrialDivision::default()` (derived `Default`): an empty cache. -/
def TrialDivision.defaultState : TrialDivision := ⟨[]⟩

/-- `TrialDivision::list`. -/
def TrialDivision.list (td : TrialDivision) : List Nat := td.lst

/-- The inner `for` loop of `TrialDivision::expand`: scan the cached primes
`n` in order, setting `remainder = l % n` and breaking as soon as
`remainder == 0 || n * n > l`; returns the final value of `remainder`
(initially 0). -/
def TrialDivision.scanRem (l : Nat) : List Nat → Nat → Nat
  | [], r => r
  | n :: rest, _ =>
    let r := l % n
    if r = 0 || n * n > l then r else TrialDivision.scanRem l rest r

/-- The outer `loop` of `TrialDivision::expand`: try candidates `l, l+2, …`
until the scan ends with a nonzero remainder.  Fuel-indexed; the Rust loop is
unbounded. -/
def TrialDivision.search (lst : List Nat) : Nat → Nat → Option Nat
  | 0, _ => none
  | fuel + 1, l =>
    if TrialDivision.scanRem l lst 0 ≠ 0 then some l
    else TrialDivision.search lst fuel (l + 2)

/-- `TrialDivision::expand`.  `self.lst.last().unwrap()` panics on an empty
cache, modelled by `none`; the candidate search gets fuel `last + 2`, enough
on every reachable state (Bertrand: the next prime is at most `2 * last`). -/
def TrialDivision.expand (td : TrialDivision) : Option TrialDivision :=
  match td.lst.getLast? with
  | none => none
  | some last =>
    (TrialDivision.search td.lst (last + 2) (last + 2)).map fun l => ⟨td.lst ++ [l]⟩

/-- Lexicographic order on heap entries `(composite, prime)`, matching the
order `BinaryHeap<Reverse<(u64, u64)>>` pops them in. -/
def pairLe (e f : Nat × Nat) : Prop := e.1 < f.1 ∨ (e.1 = f.1 ∧ e.2 ≤ f.2)

/-- Insert an entry into the sorted-list model of the heap. -/
def heapPush (e : Nat × Nat) : List (Nat × Nat) → List (Nat × Nat)
  | [] => [e]
  | f :: rest =>
    if e.1 < f.1 ∨ (e.1 = f.1 ∧ e.2 ≤ f.2) then e :: f :: rest
    else f :: heapPush e rest

/-- The `Sieve` engine: primes found, the wheel, and the heap of pending
`(composite, prime)` pairs, modelled as a list sorted by `pairLe`. -/
structure Sieve where
  primes : List Nat
  wheel : Wheel30
  sieve : List (Nat × Nat)

/-- `Sieve::new`, primed with 2, 3, 5; wheel starts at `base 0, ix 1`. -/
def Sieve.new : Sieve := { primes := [2, 3, 5], wheel := ⟨0, 1⟩, sieve := [] }

/-- `Sieve::default()` (derived `Default`): all fields empty/zero. -/
def Sieve.defaultState : Sieve := { primes := [], wheel := ⟨0, 0⟩, sieve := [] }

/-- `Sieve::list`. -/
def Sieve.list (s : Sieve) : List Nat := s.primes

/-- `Sieve::insert(prime, composite)`: push `(composite, prime)` on the heap. -/
def Sieve.insert (s : Sieve) (prime composite : Nat) : Sieve :=
  { s with sieve := heapPush (composite, prime) s.sieve }

/-- The `loop` of `Sieve::expand`, fuel-indexed.  `peek` is the head of the
sorted list; `pop` is `tail`. -/
def sieveLoop : Nat → Sieve → Nat → Option Sieve
  | 0, _, _ => none
  | fuel + 1, s, nextp =>
    match s.sieve.head? with
    | none =>
      let s1 := s.insert nextp (nextp * nextp)
      some { s1 with primes := s1.primes ++ [nextp] }
    | some (composite, factor) =>
      if composite < nextp then
        sieveLoop fuel ({ s with sieve := s.sieve.tail }.insert factor (composite + 2 * factor)) nextp
      else if composite = nextp then
        let s1 := { s with sieve := s.sieve.tail }.insert factor (composite + 2 * factor)
        let wn := s1.wheel.next
        sieveLoop fuel { s1 with wheel := wn.2 } wn.1
      else
        let s1 := s.insert nextp (nextp * nextp)
        some { s1 with primes := s1.primes ++ [nextp] }

/-- Fuel given to `sieveLoop` by `Sieve::expand`; proven sufficient on every
reachable state. -/
def sieveFuel (s : Sieve) : Nat :=
  (s.primes.length + 2) * (2 * s.primes.getLastD 0 + 30)

/-- `Sieve::expand`: draw a wheel candidate, then run the loop. -/
def Sieve.expand (s : Sieve) : Option Sieve :=
  let wn := s.wheel.next
  sieveLoop (sieveFuel s) { s with wheel := wn.2 } wn.1

/-- Iterated `expand` (a finite sequence of `expand()` calls). -/
def expandN {σ : Type} (expand : σ → Option σ) : Nat → σ → Option σ
  | 0, s => some s
  | k + 1, s => (expand s).bind (expandN expand k)

/-- The binary-search loop of `PrimeSet::find_vec`.  Out-of-bounds indexing
(a Rust panic) is modelled by `none` via `List.get?`.  The loop variable
`lim` strictly decreases (`lim >>= 1` each round), so `l.length` rounds of
fuel always suffice; the fuel keeps the recursion structural. -/
def PrimeSet.findVecLoop (l : List Nat) (n : Nat) : Nat → Nat → Nat → Option (Nat × Nat)
  | 0, base, lim =>
    if lim = 0 then (l.get? base).map fun v => (base, v) else none
  | fuel + 1, base, lim =>
    if lim = 0 then (l.get? base).map fun v => (base, v)
    else
      match l.get? (base + lim / 2) with
      | none => none
      | some v =>
        match compare v n with
        | Ordering.eq => some (base + lim / 2, v)
        | Ordering.lt => PrimeSet.findVecLoop l n fuel (base + lim / 2 + 1) ((lim - 1) / 2)
        | Ordering.gt => PrimeSet.findVecLoop l n fuel base (lim / 2)

/-- `PrimeSet::find_vec` (operates on `self.list()`, passed as `l`). -/
def PrimeSet.find_vec (l : List Nat) (n : Nat) : Option (Nat × Nat) :=
  if l.getLastD 0 < n then none
  else PrimeSet.findVecLoop l n l.length 0 l.length

section Engine

variable {σ : Type} (expand : σ → Option σ) (lst : σ → List Nat)

/-- The `while` loop of `PrimeSet::find`: expand while `n` exceeds the last
cached prime (`unwrap_or(&0)` on an empty cache).  Fuel-indexed. -/
def PrimeSet.findLoop (n : Nat) : Nat → σ → Option σ
  | 0, s => if (lst s).getLastD 0 < n then none else some s
  | fuel + 1, s =>
    if (lst s).getLastD 0 < n then (expand s).bind (PrimeSet.findLoop n fuel)
    else some s

/-- `PrimeSet::find`: expand until `n` is within the cache, then `find_vec`
(whose `unwrap` panic is modelled by `none`).  Returns the pair and the
final engine state. -/
def PrimeSet.find (s : σ) (n : Nat) : Option ((Nat × Nat) × σ) :=
  (PrimeSet.findLoop expand lst n (n + 1) s).bind fun s' =>
    (PrimeSet.find_vec (lst s') n).map fun r => (r, s')

/-- One step of `PrimeSetIter::next` with `expand = true`: while the cursor
`i` is past the cache, expand; then yield element `i`.  Fuel-indexed. -/
def PrimeSet.iterNext : Nat → σ → Nat → Option (Nat × σ)
  | 0, s, i =>
    if i < (lst s).length then some ((lst s).getD i 0, s) else none
  | fuel + 1, s, i =>
    if i < (lst s).length then some ((lst s).getD i 0, s)
    else (expand s).bind fun s' => PrimeSet.iterNext fuel s' i

/-- The `for m in self.iter()` loop of `PrimeSet::is_prime`.  Fuel-indexed
over loop iterations; each iteration draws the `i`-th prime from the
iterator. -/
def PrimeSet.isPrimeLoop (n : Nat) : Nat → σ → Nat → Option (Bool × σ)
  | 0, _, _ => none
  | fuel + 1, s, i =>
    match PrimeSet.iterNext expand lst (i + 2) s i with
    | none => none
    | some (m, s') =>
      if n % m = 0 then some (false, s')
      else if m * m > n then some (true, s')
      else PrimeSet.isPrimeLoop n fuel s' (i + 1)

/-- `PrimeSet::is_prime`. -/
def PrimeSet.is_prime (s : σ) (n : Nat) : Option (Bool × σ) :=
  if n ≤ 1 then some (false, s)
  else if n = 2 then some (true, s)
  else PrimeSet.isPrimeLoop expand lst n (n + 2) s 0

end Engine

/-- The inner `while curn % p == 0` loop of `PrimeSet::prime_factors`:
divide out `p`, pushing it each time; the `Bool` is `true` when the Rust
code hits `return lst` (at `curn == 1`).  Fuel-indexed: for `n = 0` the
Rust loop runs forever, and this returns `none` for every fuel. -/
def PrimeSet.pfInner (p : Nat) : Nat → Nat → List Nat → Option (Nat × List Nat × Bool)
  | 0, _, _ => none
  | fuel + 1, curn, acc =>
    if curn % p = 0 then
      let acc' := acc ++ [p]
      let curn' := curn / p
      if curn' = 1 then some (curn', acc', true)
      else PrimeSet.pfInner p fuel curn' acc'
    else some (curn, acc, false)

section Engine2

variable {σ : Type} (expand : σ → Option σ) (lst : σ → List Nat)

/-- The `for p in self.iter()` loop of `PrimeSet::prime_factors`. -/
def PrimeSet.pfLoop : Nat → σ → Nat → Nat → List Nat → Option (List Nat × σ)
  | 0, _, _, _, _ => none
  | fuel + 1, s, i, curn, acc =>
    match PrimeSet.iterNext expand lst (i + 2) s i with
    | none => none
    | some (p, s') =>
      match PrimeSet.pfInner p (curn + 1) curn acc with
      | none => none
      | some (curn', acc', done) =>
        if done then some (acc', s')
        else if p * p > curn' then some (acc' ++ [curn'], s')
        else PrimeSet.pfLoop fuel s' (i + 1) curn' acc'

/-- `PrimeSet::prime_factors`. -/
def PrimeSet.prime_factors (s : σ) (n : Nat) : Option (List Nat × σ) :=
  if n = 1 then some ([], s)
  else PrimeSet.pfLoop expand lst (n + 2) s 0 n []

end Engine2

/-- The `for` loop of `firstfac`: odd candidates `n = 3, 5, 7, …` while
`n * n ≤ x`, returning the first divisor, else `x`. -/
def firstfacAux (x : Nat) (n : Nat) : Nat :=
  if n * n ≤ x then
    if x % n = 0 then n else firstfacAux x (n + 2)
  else x
termination_by x + 2 - n
decreasing_by
  rcases Nat.eq_zero_or_pos n with h0 | h0
  · omega
  · have hnx : n ≤ n * n := Nat.le_mul_of_pos_left n h0
    omega

/-- Free function `firstfac`: the first factor (other than 1) of a number. -/
def firstfac (x : Nat) : Nat :=
  if x % 2 = 0 then 2 else firstfacAux x 3

/-- The `loop` of free function `factors`.  The Rust loop breaks when
`m == curn`; the guard `2 ≤ m ∧ m < curn` is equivalent on every input the
loop is reached with (`curn ≥ 2`, where `firstfac curn` is between 2 and
`curn`), and makes termination structural in `curn`. -/
def factorsLoop (curn : Nat) : List Nat :=
  let m := firstfac curn
  if hm : 2 ≤ m ∧ m < curn then m :: factorsLoop (curn / m)
  else [m]
termination_by curn
decreasing_by
  exact Nat.div_lt_self (by omega) hm.1

/-- Free function `factors`. -/
def factors (x : Nat) : List Nat :=
  if x ≤ 1 then [] else factorsLoop x

/-- The `while curn % m == 0 { curn /= m }` loop of `factors_uniq`, returning
the stripped value together with the bounds used for termination of the
outer loop.  The guards `2 ≤ m ∧ 0 < c` are vacuous on every input the Rust
loop is reached with. -/
def stripAllS (m : Nat) (c : Nat) : { r : Nat // r ≤ c ∧ (c % m = 0 ∧ 2 ≤ m ∧ 0 < c → r < c) } :=
  if h : c % m = 0 ∧ 2 ≤ m ∧ 0 < c then
    let r := stripAllS m (c / m)
    ⟨r.1, by
      have hd : c / m < c := Nat.div_lt_self h.2.2 h.2.1
      exact ⟨le_trans r.2.1 (le_of_lt hd), fun _ => lt_of_le_of_lt r.2.1 hd⟩⟩
  else ⟨c, le_refl c, fun hc => absurd hc h⟩
termination_by c
decreasing_by
  exact Nat.div_lt_self h.2.2 h.2.1

/-- The `loop` of free function `factors_uniq`.  As in `factorsLoop`, the
guard is equivalent to the Rust `curn == m` break on every reachable input
(where additionally `firstfac curn ∣ curn` always holds). -/
def fuLoop (curn : Nat) : List Nat :=
  let m := firstfac curn
  if hm : 2 ≤ m ∧ m < curn ∧ curn % m = 0 then
    if (stripAllS m curn).1 = 1 then [m] else m :: fuLoop (stripAllS m curn).1
  else [m]
termination_by curn
decreasing_by
  exact (stripAllS (firstfac curn) curn).2.2 ⟨hm.2.2, hm.1, by omega⟩

/-- Free function `factors_uniq`. -/
def factors_uniq (x : Nat) : List Nat :=
  if x ≤ 1 then [] else fuLoop x

/-- Free function `is_prime`. -/
def is_prime (n : Nat) : Bool :=
  if n ≤ 1 then false else decide (firstfac n = n)

/-! Spec-side definitions. -/

/-- The cache invariant of the spec: nonempty, strictly increasing, all
entries prime, and complete (every prime up to the last entry occurs).  The
completeness quantifier is bounded so that the predicate is decidable on
concrete lists. -/
def IsPrimeList (l : List Nat) : Prop :=
  l ≠ [] ∧ l.Sorted (· < ·) ∧ (∀ x ∈ l, Nat.Prime x) ∧
    ∀ p ∈ List.range (l.getLastD 0 + 1), Nat.Prime p → p ∈ l

/-- `p` is the smallest prime greater than `m`. -/
def IsNextPrime (m p : Nat) : Prop :=
  Nat.Prime p ∧ m < p ∧ ∀ q, m < q → Nat.Prime q → p ≤ q

/-- An engine whose `expand` succeeds from every invariant state and appends
exactly the next prime.  Both engines are proven to satisfy this. -/
structure EngineOK {σ : Type} (expand : σ → Option σ) (lst : σ → List Nat)
    (Inv : σ → Prop) : Prop where
  listPrime : ∀ s, Inv s → IsPrimeList (lst s)
  expandOk : ∀ s, Inv s → ∃ s' p, expand s = some s' ∧ Inv s' ∧
    IsNextPrime ((lst s).getLastD 0) p ∧ lst s' = lst s ++ [p]

/-- Reachable-state invariant of the `TrialDivision` engine. -/
def TrialDivision.Inv (td : TrialDivision) : Prop :=
  IsPrimeList td.lst ∧ 3 ≤ td.lst.getLastD 0

/-- The arithmetic progression of composites a sieve entry for prime `q`
steps through: `q², q² + 2q, q² + 4q, …` (the odd multiples of `q` from `q²`
on, when `q` is odd). -/
def EntryProg (c q : Nat) : Prop := ∃ t, c = q * (q + 2 * t)

/-- Reachable-state invariant of the `Sieve` engine (between `expand`s).
`W(wheel)` is the least coprime-to-30 number above the last prime; the heap
is sorted, holds exactly one entry per cached prime `≥ 7`, and each entry
`(c, q)` sits on `q`'s progression, above the last prime, with its
predecessor at or below the last prime (or is the initial `q²`). -/
def Sieve.Inv (s : Sieve) : Prop :=
  IsPrimeList s.primes ∧ 5 ≤ s.primes.getLastD 0 ∧
  s.wheel.Valid ∧
  s.primes.getLastD 0 < s.wheel.value ∧
  Nat.Coprime (s.wheel.value) 30 ∧
  (∀ m, s.primes.getLastD 0 < m → m < s.wheel.value → ¬Nat.Coprime m 30) ∧
  s.sieve.Sorted pairLe ∧
  List.Perm (s.sieve.map Prod.snd) (s.primes.filter fun q => decide (7 ≤ q)) ∧
  ∀ e ∈ s.sieve, EntryProg e.1 e.2 ∧ s.primes.getLastD 0 < e.1 ∧
    (e.1 = e.2 * e.2 ∨ e.1 ≤ s.primes.getLastD 0 + 2 * e.2)

/-- Mid-loop invariant of `sieveLoop`, over the current candidate `nextp`.
The last prime is `last = s.primes.getLastD 0` throughout the loop. -/
def SieveMid (s : Sieve) (nextp : Nat) : Prop :=
  IsPrimeList s.primes ∧ 5 ≤ s.primes.getLastD 0 ∧
  s.wheel.Valid ∧
  s.primes.getLastD 0 < nextp ∧
  Nat.Coprime nextp 30 ∧
  (∀ q, s.primes.getLastD 0 < q → Nat.Prime q → nextp ≤ q) ∧
  nextp < s.wheel.value ∧
  Nat.Coprime (s.wheel.value) 30 ∧
  (∀ m, nextp < m → m < s.wheel.value → ¬Nat.Coprime m 30) ∧
  s.sieve.Sorted pairLe ∧
  List.Perm (s.sieve.map Prod.snd) (s.primes.filter fun q => decide (7 ≤ q)) ∧
  ∀ e ∈ s.sieve, EntryProg e.1 e.2 ∧ s.primes.getLastD 0 < e.1 ∧
    (e.1 = e.2 * e.2 ∨ e.1 < nextp + 2 * e.2)

/-- Termination measure for `sieveLoop`, relative to the next prime `P`. -/
def sieveMeasure (P : Nat) (s : Sieve) (nextp : Nat) : Nat :=
  (s.sieve.map fun e => (P + 2 * e.2 - e.1) / (2 * e.2)).sum + 2 * (P - nextp)

/-- The first 169 primes:  the cache of a `TrialDivision` engine after 167
`expand()` calls from `new()`. -/
def L1009 : List Nat := [
  2, 3, 5, 7, 11, 13, 17, 19, 23, 29, 31, 37, 41, 43, 47, 53, 59, 61, 67,
  71, 73, 79, 83, 89, 97, 101, 103, 107, 109, 113, 127, 131, 137, 139, 149,
  151, 157, 163, 167, 173, 179, 181, 191, 193, 197, 199, 211, 223, 227,
  229, 233, 239, 241, 251, 257, 263, 269, 271, 277, 281, 283, 293, 307,
  311, 313, 317, 331, 337, 347, 349, 353, 359, 367, 373, 379, 383, 389,
  397, 401, 409, 419, 421, 431, 433, 439, 443, 449, 457, 461, 463, 467,
  479, 487, 491, 499, 503, 509, 521, 523, 541, 547, 557, 563, 569, 571,
  577, 587, 593, 599, 601, 607, 613, 617, 619, 631, 641, 643, 647, 653,
  659, 661, 673, 677, 683, 691, 701, 709, 719, 727, 733, 739, 743, 751,
  757, 761, 769, 773, 787, 797, 809, 811, 821, 823, 827, 829, 839, 853,
  857, 859, 863, 877, 881, 883, 887, 907, 911, 919, 929, 937, 941, 947,
  953, 967, 971, 977, 983, 991, 997, 1009]

end Primes

-- THEOREMS BELOW THIS LINE

namespace Primes

/-! Basic facts about `IsPrimeList` and `IsNextPrime`. -/

theorem isPrimeList_complete {l : List Nat} (h : IsPrimeList l) :
    ∀ p, Nat.Prime p → p ≤ l.getLastD 0 → p ∈ l := by
  intro p hp hle
  exact h.2.2.2 p (List.mem_range.2 (by omega)) hp

theorem getLastD_eq_getD {l : List Nat} (h : l ≠ []) :
    l.getLastD 0 = l.getD (l.length - 1) 0 := by
  have hlt : l.length - 1 < l.length := Nat.sub_lt (List.length_pos.2 h) one_pos
  rw [List.getD_eq_getElem l 0 hlt, List.getLastD_eq_getLast?,
    List.getLast?_eq_getLast l h, Option.getD_some, List.getLast_eq_getElem]

theorem isPrimeList_mem_le {l : List Nat} (h : IsPrimeList l) {x : Nat} (hx : x ∈ l) :
    x ≤ l.getLastD 0 := by
  obtain ⟨i, hi, rfl⟩ := List.mem_iff_getElem.1 hx
  rw [getLastD_eq_getD h.1,
    List.getD_eq_getElem l 0 (Nat.sub_lt (List.length_pos.2 h.1) one_pos)]
  rcases Nat.lt_or_ge i (l.length - 1) with hlt | hge
  · exact le_of_lt (List.pairwise_iff_get.1 h.2.1 ⟨i, hi⟩ ⟨l.length - 1, by omega⟩ hlt)
  · have : i = l.length - 1 := by omega
    subst this; exact le_refl _

theorem isPrimeList_getLast_mem {l : List Nat} (h : IsPrimeList l) :
    l.getLastD 0 ∈ l := by
  rw [getLastD_eq_getD h.1,
    List.getD_eq_getElem l 0 (Nat.sub_lt (List.length_pos.2 h.1) one_pos)]
  exact List.getElem_mem _

theorem isPrimeList_getLast_prime {l : List Nat} (h : IsPrimeList l) :
    Nat.Prime (l.getLastD 0) :=
  h.2.2.1 _ (isPrimeList_getLast_mem h)

theorem isPrimeList_two_mem {l : List Nat} (h : IsPrimeList l) : 2 ∈ l :=
  isPrimeList_complete h 2 Nat.prime_two (isPrimeList_getLast_prime h).two_le

theorem isPrimeList_getD_mem {l : List Nat} {i : Nat} (hi : i < l.length) :
    l.getD i 0 ∈ l := by
  rw [List.getD_eq_getElem l 0 hi]; exact List.getElem_mem _

theorem isPrimeList_getD_lt {l : List Nat} (h : IsPrimeList l) {i j : Nat}
    (hij : i < j) (hj : j < l.length) : l.getD i 0 < l.getD j 0 := by
  rw [List.getD_eq_getElem l 0 (lt_trans hij hj), List.getD_eq_getElem l 0 hj]
  exact List.pairwise_iff_get.1 h.2.1 ⟨i, lt_trans hij hj⟩ ⟨j, hj⟩ hij

theorem isPrimeList_head {l : List Nat} (h : IsPrimeList l) : l.getD 0 0 = 2 := by
  obtain ⟨j, hj, hje⟩ := List.mem_iff_getElem.1 (isPrimeList_two_mem h)
  have h0 : 0 < l.length := List.length_pos.2 h.1
  have h2 : 2 ≤ l.getD 0 0 :=
    (h.2.2.1 _ (isPrimeList_getD_mem h0)).two_le
  rcases Nat.eq_zero_or_pos j with rfl | hpos
  · rw [List.getD_eq_getElem l 0 h0, hje]
  · have := isPrimeList_getD_lt h hpos hj
    rw [List.getD_eq_getElem l 0 hj, hje] at this
    omega

theorem isPrimeList_eq_filter {l : List Nat} (h : IsPrimeList l) :
    l = (List.range (l.getLastD 0 + 1)).filter fun m => decide (Nat.Prime m) := by
  have hsortf : (List.filter (fun m => decide (Nat.Prime m)) (List.range (l.getLastD 0 + 1))).Sorted (· < ·) :=
    (List.pairwise_lt_range _).filter _
  refine List.eq_of_perm_of_sorted ?_ h.2.1 hsortf
  refine (List.perm_ext_iff_of_nodup h.2.1.nodup hsortf.nodup).2 fun a => ?_
  constructor
  · intro ha
    refine List.mem_filter.2 ⟨List.mem_range.2 ?_, by simpa using h.2.2.1 a ha⟩
    have := isPrimeList_mem_le h ha
    omega
  · intro ha
    obtain ⟨har, hap⟩ := List.mem_filter.1 ha
    exact h.2.2.2 a har (by simpa using hap)

theorem isPrimeList_prefix {l₁ l₂ : List Nat} (h₁ : IsPrimeList l₁) (h₂ : IsPrimeList l₂)
    (hlen : l₁.length ≤ l₂.length) : l₁ <+: l₂ := by
  have key : ∀ a b : List Nat, IsPrimeList a → IsPrimeList b →
      a.getLastD 0 ≤ b.getLastD 0 → a <+: b := by
    intro a b ha hb hab
    rw [isPrimeList_eq_filter ha, isPrimeList_eq_filter hb]
    refine List.IsPrefix.filter _ ?_
    have : List.range (a.getLastD 0 + 1) = (List.range (b.getLastD 0 + 1)).take (a.getLastD 0 + 1) := by
      rw [List.take_range, Nat.min_eq_left (by omega)]
    rw [this]
    exact List.take_prefix _ _
  rcases le_total (l₁.getLastD 0) (l₂.getLastD 0) with hc | hc
  · exact key l₁ l₂ h₁ h₂ hc
  · have hpre := key l₂ l₁ h₂ h₁ hc
    have : l₂ = l₁ := hpre.eq_of_length (le_antisymm hpre.length_le hlen)
    rw [this]

theorem isPrimeList_getD_stable {l₁ l₂ : List Nat} (h₁ : IsPrimeList l₁)
    (h₂ : IsPrimeList l₂) {i : Nat} (hi : i < l₁.length) (hlen : l₁.length ≤ l₂.length) :
    l₁.getD i 0 = l₂.getD i 0 := by
  have hpre := isPrimeList_prefix h₁ h₂ hlen
  rw [List.getD_eq_getElem l₁ 0 hi, List.getD_eq_getElem l₂ 0 (lt_of_lt_of_le hi hlen)]
  exact hpre.getElem hi

theorem isPrimeList_append {l : List Nat} {p : Nat} (h : IsPrimeList l)
    (hp : IsNextPrime (l.getLastD 0) p) : IsPrimeList (l ++ [p]) := by
  obtain ⟨hprime, hgt, hleast⟩ := hp
  refine ⟨by simp, ?_, ?_, ?_⟩
  · rw [List.Sorted, List.pairwise_append]
    refine ⟨h.2.1, List.pairwise_singleton _ _, fun a ha b hb => ?_⟩
    rw [List.mem_singleton] at hb
    subst hb
    exact lt_of_le_of_lt (isPrimeList_mem_le h ha) hgt
  · intro x hx
    rcases List.mem_append.1 hx with hx | hx
    · exact h.2.2.1 x hx
    · rw [List.mem_singleton] at hx; subst hx; exact hprime
  · intro q hq hqp
    rw [List.getLastD_concat, List.mem_range] at hq
    rcases Nat.lt_or_ge (l.getLastD 0) q with hc | hc
    · have : q = p := le_antisymm (by omega) (hleast q hc hqp)
      subst this
      exact List.mem_append.2 (Or.inr (List.mem_singleton.2 rfl))
    · exact List.mem_append.2 (Or.inl (isPrimeList_complete h q hqp hc))

theorem isPrimeList_isNext {l : List Nat} (h : IsPrimeList l) {i : Nat}
    (hi : i + 1 < l.length) : IsNextPrime (l.getD i 0) (l.getD (i + 1) 0) := by
  refine ⟨h.2.2.1 _ (isPrimeList_getD_mem hi), isPrimeList_getD_lt h (Nat.lt_succ_self i) hi, ?_⟩
  intro q hq hqp
  by_contra hlt
  push_neg at hlt
  have hql : q ≤ l.getLastD 0 := by
    have h2 := isPrimeList_mem_le h (isPrimeList_getD_mem hi)
    omega
  obtain ⟨j, hj, hje⟩ := List.mem_iff_getElem.1 (isPrimeList_complete h q hqp hql)
  have hjd : l.getD j 0 = q := by rw [List.getD_eq_getElem l 0 hj, hje]
  rcases Nat.lt_or_ge j (i + 1) with hji | hji
  · rcases Nat.lt_or_ge j i with hji2 | hji2
    · have := isPrimeList_getD_lt h hji2 (by omega)
      omega
    · have : j = i := by omega
      subst this
      omega
  · rcases Nat.eq_or_lt_of_le hji with rfl | hji2
    · omega
    · have := isPrimeList_getD_lt h hji2 hj
      omega

theorem isNextPrime_unique {m p q : Nat} (hp : IsNextPrime m p) (hq : IsNextPrime m q) :
    p = q :=
  le_antisymm (hp.2.2 q hq.2.1 hq.1) (hq.2.2 p hp.2.1 hp.1)

theorem isNextPrime_exists {m : Nat} (hm : 1 ≤ m) :
    ∃ p, IsNextPrime m p ∧ p ≤ 2 * m := by
  obtain ⟨p0, hp0, hmp0, hp02⟩ := Nat.exists_prime_lt_and_le_two_mul m (by omega)
  have hex : ∃ p, m < p ∧ Nat.Prime p := ⟨p0, hmp0, hp0⟩
  refine ⟨Nat.find hex, ⟨(Nat.find_spec hex).2, (Nat.find_spec hex).1, ?_⟩, ?_⟩
  · intro q hq hqp
    exact Nat.find_min' hex ⟨hq, hqp⟩
  · exact le_trans (Nat.find_min' hex ⟨hmp0, hp0⟩) hp02

theorem isNextPrime_ge {m p : Nat} (h : IsNextPrime m p) : m + 1 ≤ p := h.2.1

theorem isNextPrime_odd {m p : Nat} (h : IsNextPrime m p) (hm : 2 ≤ m) : p % 2 = 1 := by
  have hne : p ≠ 2 := by have := h.2.1; omega
  obtain ⟨k, hk⟩ := h.1.odd_of_ne_two hne
  omega

end Primes

namespace Primes

/-! Correctness of the binary search `PrimeSet::find_vec`. -/

theorem sorted_getD_le {l : List Nat} (hs : l.Sorted (· < ·)) {i j : Nat}
    (hij : i ≤ j) (hj : j < l.length) : l.getD i 0 ≤ l.getD j 0 := by
  rcases Nat.eq_or_lt_of_le hij with rfl | hlt
  · exact le_refl _
  · rw [List.getD_eq_getElem l 0 (lt_trans hlt hj), List.getD_eq_getElem l 0 hj]
    exact le_of_lt (List.pairwise_iff_get.1 hs ⟨i, lt_trans hlt hj⟩ ⟨j, hj⟩ hlt)

theorem findVecLoop_ok {l : List Nat} (hs : l.Sorted (· < ·)) {n a : Nat}
    (ha : a < l.length) (han : n ≤ l.getD a 0) (hmin : ∀ j, j < a → l.getD j 0 < n) :
    ∀ lim fuel base, lim ≤ fuel → base ≤ a → a ≤ base + lim → base + lim ≤ l.length →
      PrimeSet.findVecLoop l n fuel base lim = some (a, l.getD a 0) := by
  intro lim
  induction lim using Nat.strong_induction_on with
  | _ lim ih =>
    intro fuel base hlf hba hab hbl
    rcases Nat.eq_zero_or_pos lim with rfl | hpos
    · have hbe : base = a := by omega
      have hget : (l.get? base).map (fun v => (base, v)) = some (a, l.getD a 0) := by
        rw [hbe, List.getD_eq_getElem l 0 ha]
        simp [List.get?_eq_getElem?, List.getElem?_eq_getElem ha]
      cases fuel with
      | zero => rw [PrimeSet.findVecLoop, if_pos rfl]; exact hget
      | succ f => rw [PrimeSet.findVecLoop, if_pos rfl]; exact hget
    · obtain ⟨f, rfl⟩ : ∃ f, fuel = f + 1 := ⟨fuel - 1, by omega⟩
      rw [PrimeSet.findVecLoop]
      have hlim0 : ¬ lim = 0 := by omega
      simp only [if_neg hlim0]
      have hix : base + lim / 2 < l.length := by omega
      rw [List.get?_eq_getElem?, List.getElem?_eq_getElem hix]
      have hvd : l[base + lim / 2] = l.getD (base + lim / 2) 0 :=
        (List.getD_eq_getElem l 0 hix).symm
      simp only
      rcases Nat.lt_trichotomy (l[base + lim / 2]) n with hc | hc | hc
      · rw [Nat.compare_eq_lt.2 hc]
        have hia : base + lim / 2 < a := by
          by_contra hcon
          push_neg at hcon
          have h3 := sorted_getD_le hs hcon hix
          rw [hvd] at hc
          omega
        have e1 : (lim - 1) / 2 < lim := by omega
        have e2 : base + lim / 2 + 1 ≤ a := by omega
        have e3 : a ≤ base + lim / 2 + 1 + (lim - 1) / 2 := by omega
        have e4 : base + lim / 2 + 1 + (lim - 1) / 2 ≤ l.length := by omega
        exact ih ((lim - 1) / 2) e1 f (base + lim / 2 + 1) (by omega) e2 e3 e4
      · rw [Nat.compare_eq_eq.2 hc]
        have hia : a = base + lim / 2 := by
          rcases Nat.lt_trichotomy a (base + lim / 2) with h2 | h2 | h2
          · have h3 : l.getD a 0 < l.getD (base + lim / 2) 0 := by
              rw [List.getD_eq_getElem l 0 ha, List.getD_eq_getElem l 0 hix]
              exact List.pairwise_iff_get.1 hs ⟨a, ha⟩ ⟨_, hix⟩ h2
            rw [hvd] at hc
            omega
          · exact h2
          · have h3 := hmin _ h2
            rw [hvd] at hc
            omega
        subst hia
        rw [List.getD_eq_getElem l 0 hix]
      · rw [Nat.compare_eq_gt.2 hc]
        have hia : a ≤ base + lim / 2 := by
          by_contra hcon
          push_neg at hcon
          have h3 := hmin _ hcon
          rw [hvd] at hc
          omega
        have e1 : lim / 2 < lim := by omega
        have e3 : a ≤ base + lim / 2 := hia
        have e4 : base + lim / 2 ≤ l.length := by omega
        exact ih (lim / 2) e1 f base (by omega) hba e3 e4

theorem find_vec_none {l : List Nat} {n : Nat} (h : l.getLastD 0 < n) :
    PrimeSet.find_vec l n = none := by
  rw [PrimeSet.find_vec, if_pos h]

theorem find_vec_some {l : List Nat} (h : IsPrimeList l) {n : Nat}
    (hn : n ≤ l.getLastD 0) :
    ∃ i, i < l.length ∧ PrimeSet.find_vec l n = some (i, l.getD i 0) ∧
      n ≤ l.getD i 0 ∧ ∀ j, j < i → l.getD j 0 < n := by
  have hne : l ≠ [] := h.1
  have hlen : 0 < l.length := List.length_pos.2 hne
  have hex : ∃ i, i < l.length ∧ n ≤ l.getD i 0 := by
    refine ⟨l.length - 1, by omega, ?_⟩
    rw [← getLastD_eq_getD hne]
    exact hn
  set a := Nat.find hex with hadef
  obtain ⟨haa, hab⟩ := Nat.find_spec hex
  have hmin : ∀ j, j < a → l.getD j 0 < n := by
    intro j hj
    have := Nat.find_min hex hj
    push_neg at this
    rcases Nat.lt_or_ge j l.length with h2 | h2
    · exact this h2
    · omega
  refine ⟨a, haa, ?_, hab, hmin⟩
  rw [PrimeSet.find_vec, if_neg (by omega)]
  exact findVecLoop_ok h.2.1 haa hab hmin l.length l.length 0 (le_refl _) (by omega)
    (by omega) (by omega)

/-- The element `find_vec` returns is the least cached value `≥ n`. -/
theorem find_vec_least {l : List Nat} (h : IsPrimeList l) {n i : Nat}
    (hi : i < l.length) (hmin : ∀ j, j < i → l.getD j 0 < n) :
    ∀ x ∈ l, n ≤ x → l.getD i 0 ≤ x := by
  intro x hx hnx
  obtain ⟨j, hj, rfl⟩ := List.mem_iff_getElem.1 hx
  rw [← List.getD_eq_getElem l 0 hj] at hnx ⊢
  rcases Nat.lt_or_ge j i with hc | hc
  · have := hmin _ hc
    omega
  · exact sorted_getD_le h.2.1 hc hj

end Primes

namespace Primes

/-! Correctness of `TrialDivision::expand`. -/

theorem scanRem_accepts {c : Nat} : ∀ (lst : List Nat) (r : Nat),
    (∀ n ∈ lst, 2 ≤ n ∧ ¬ n ∣ c) → (∃ n ∈ lst, n * n > c) →
    TrialDivision.scanRem c lst r ≠ 0 := by
  intro lst
  induction lst with
  | nil =>
    intro r _ hex
    obtain ⟨n, hn, _⟩ := hex
    exact absurd hn (List.not_mem_nil n)
  | cons n rest ih =>
    intro r hall hex
    obtain ⟨h2n, hnd⟩ := hall n (List.mem_cons_self n rest)
    have hr : ¬ c % n = 0 := fun h => hnd (Nat.dvd_of_mod_eq_zero h)
    by_cases hsq : n * n > c
    · simp only [TrialDivision.scanRem, if_pos (by simp [hr, hsq] : (decide (c % n = 0) || decide (n * n > c)) = true)]
      exact fun h => hr h
    · simp only [TrialDivision.scanRem, if_neg (by simp [hr, hsq] : ¬ (decide (c % n = 0) || decide (n * n > c)) = true)]
      refine ih _ (fun m hm => hall m (List.mem_cons_of_mem n hm)) ?_
      obtain ⟨m, hm, hmsq⟩ := hex
      rcases List.mem_cons.1 hm with rfl | hm2
      · exact absurd hmsq hsq
      · exact ⟨m, hm2, hmsq⟩

theorem scanRem_rejects {c q : Nat} (hq : q ∣ c) : ∀ (lst : List Nat) (r : Nat),
    lst.Sorted (· < ·) → q ∈ lst →
    (∀ n ∈ lst, n < q → ¬ n ∣ c ∧ n * n ≤ c) →
    TrialDivision.scanRem c lst r = 0 := by
  intro lst
  induction lst with
  | nil => intro r _ hq' _; exact absurd hq' (List.not_mem_nil q)
  | cons n rest ih =>
    intro r hs hmem hall
    rcases List.mem_cons.1 hmem with rfl | hmem2
    · have hr : c % q = 0 := Nat.mod_eq_zero_of_dvd hq
      simp only [TrialDivision.scanRem, if_pos (by simp [hr] : (decide (c % q = 0) || decide (q * q > c)) = true)]
      exact hr
    · have hnq : n < q := (List.sorted_cons.1 hs).1 q hmem2
      obtain ⟨hnd, hsq⟩ := hall n (List.mem_cons_self n rest) hnq
      have hr : ¬ c % n = 0 := fun h => hnd (Nat.dvd_of_mod_eq_zero h)
      simp only [TrialDivision.scanRem, if_neg (by simp [hr] ; omega : ¬ (decide (c % n = 0) || decide (n * n > c)) = true)]
      exact ih _ (List.sorted_cons.1 hs).2 hmem2
        (fun m hm hmq => hall m (List.mem_cons_of_mem n hm) hmq)

end Primes

namespace Primes

/-- A prime at least 3 is odd. -/
theorem prime_ge3_odd {p : Nat} (hp : Nat.Prime p) (h3 : 3 ≤ p) : p % 2 = 1 := by
  obtain ⟨k, hk⟩ := hp.odd_of_ne_two (by omega)
  omega

/-- The candidate scan accepts the next prime. -/
theorem scanRem_next_prime {l : List Nat} (h : IsPrimeList l)
    (hL : 3 ≤ l.getLastD 0) {P : Nat} (hP : IsNextPrime (l.getLastD 0) P)
    (hP2 : P ≤ 2 * l.getLastD 0) :
    TrialDivision.scanRem P l 0 ≠ 0 := by
  set L := l.getLastD 0 with hLdef
  refine scanRem_accepts l 0 (fun n hn => ?_) ⟨L, isPrimeList_getLast_mem h, ?_⟩
  · have hnp := h.2.2.1 n hn
    have hnle := isPrimeList_mem_le h hn
    refine ⟨hnp.two_le, fun hdvd => ?_⟩
    rcases (Nat.Prime.eq_one_or_self_of_dvd hP.1 n hdvd) with h1 | h1
    · exact absurd h1 (by have := hnp.two_le; omega)
    · have := hP.2.1
      omega
  · have hodd : P % 2 = 1 := isNextPrime_odd hP (by omega)
    have : P < 2 * L := by omega
    nlinarith

/-- The candidate scan rejects odd composites between the last prime and the
next prime. -/
theorem scanRem_composite {l : List Nat} (h : IsPrimeList l)
    (hL : 3 ≤ l.getLastD 0) {c : Nat} (hgt : l.getLastD 0 < c)
    (hc2 : c ≤ 2 * l.getLastD 0) (hcomp : ¬ Nat.Prime c) :
    TrialDivision.scanRem c l 0 = 0 := by
  set L := l.getLastD 0 with hLdef
  have hc1 : c ≠ 1 := by omega
  have hq := Nat.minFac_prime hc1
  have hqd := Nat.minFac_dvd c
  have hsq : c.minFac * c.minFac ≤ c := by
    have := Nat.minFac_sq_le_self (by omega : 0 < c) hcomp
    nlinarith [this]
  have hqL : c.minFac ≤ L := by
    by_contra hcon
    push_neg at hcon
    have : L * L < c.minFac * c.minFac := by
      apply Nat.mul_lt_mul_of_lt_of_le hcon (le_of_lt hcon)
      omega
    nlinarith
  refine scanRem_rejects hqd l 0 h.2.1 (isPrimeList_complete h _ hq hqL) ?_
  intro n hn hnq
  have hnp := h.2.2.1 n hn
  constructor
  · intro hdvd
    have := Nat.minFac_le_of_dvd hnp.two_le hdvd
    omega
  · have : n * n < c.minFac * c.minFac :=
      Nat.mul_lt_mul_of_lt_of_le hnq (le_of_lt hnq) (by have := hnp.two_le; omega)
    omega

/-- The candidate search run by `expand` finds exactly the next prime. -/
theorem search_finds {l : List Nat} (h : IsPrimeList l) (hL : 3 ≤ l.getLastD 0)
    {P : Nat} (hP : IsNextPrime (l.getLastD 0) P) (hP2 : P ≤ 2 * l.getLastD 0) :
    ∀ fuel start, start % 2 = 1 → l.getLastD 0 < start → start ≤ P →
      (P - start) / 2 < fuel →
      TrialDivision.search l fuel start = some P := by
  intro fuel
  induction fuel with
  | zero => intro start _ _ _ hf; omega
  | succ f ih =>
    intro start hodd hgt hle hf
    rcases Nat.eq_or_lt_of_le hle with rfl | hlt
    · rw [TrialDivision.search, if_pos (scanRem_next_prime h hL hP hP2)]
    · have hcomp : ¬ Nat.Prime start := by
        intro hps
        have := hP.2.2 start hgt hps
        omega
      have hrej : TrialDivision.scanRem start l 0 = 0 :=
        scanRem_composite h hL hgt (by omega) hcomp
      rw [TrialDivision.search, if_neg (by simp [hrej])]
      have hPodd : P % 2 = 1 := isNextPrime_odd hP (by omega)
      exact ih (start + 2) (by omega) (by omega) (by omega) (by omega)

/-- `TrialDivision::expand` from an invariant state appends exactly the next
prime. -/
theorem trialDivision_expand_ok {td : TrialDivision} (hI : TrialDivision.Inv td) :
    ∃ td' p, TrialDivision.expand td = some td' ∧ TrialDivision.Inv td' ∧
      IsNextPrime (td.lst.getLastD 0) p ∧ td'.lst = td.lst ++ [p] := by
  obtain ⟨h, hL⟩ := hI
  set L := td.lst.getLastD 0 with hLdef
  obtain ⟨P, hP, hP2⟩ := isNextPrime_exists (by omega : 1 ≤ L)
  have hlast : td.lst.getLast? = some L := by
    rw [hLdef, List.getLastD_eq_getLast?, List.getLast?_eq_getLast td.lst h.1]
    simp
  have hLodd : L % 2 = 1 := prime_ge3_odd (isPrimeList_getLast_prime h) hL
  have hPodd : P % 2 = 1 := isNextPrime_odd hP (by omega)
  have hstart : L + 2 ≤ P := by
    have := hP.2.1
    omega
  have hse : TrialDivision.search td.lst (L + 2) (L + 2) = some P :=
    search_finds h hL hP hP2 (L + 2) (L + 2) (by omega) (by omega) hstart (by omega)
  refine ⟨⟨td.lst ++ [P]⟩, P, ?_, ?_, hP, rfl⟩
  · rw [TrialDivision.expand, hlast]
    simp only
    rw [hse]
    rfl
  · refine ⟨isPrimeList_append h hP, ?_⟩
    simp only [List.getLastD_concat]
    have := hP.2.1
    omega

/-- The `TrialDivision` engine satisfies the abstract engine contract. -/
theorem trialDivision_engineOK :
    EngineOK TrialDivision.expand TrialDivision.list TrialDivision.Inv := by
  refine ⟨fun s hs => hs.1, fun s hs => ?_⟩
  obtain ⟨td', p, h1, h2, h3, h4⟩ := trialDivision_expand_ok hs
  exact ⟨td', p, h1, h2, h3, h4⟩

/-- The seeded `TrialDivision::new` state satisfies the invariant. -/
theorem trialDivision_new_inv : TrialDivision.Inv TrialDivision.new := by
  unfold TrialDivision.Inv IsPrimeList
  decide

end Primes

namespace Primes

/-! Generic operations over an engine satisfying `EngineOK`. -/

section EngineProofs

variable {σ : Type} {expand : σ → Option σ} {lst : σ → List Nat} {Inv : σ → Prop}

theorem findLoop_ok (E : EngineOK expand lst Inv) (n : Nat) :
    ∀ fuel s, Inv s → n ≤ (lst s).getLastD 0 + fuel →
      ∃ s', PrimeSet.findLoop expand lst n fuel s = some s' ∧ Inv s' ∧
        lst s <+: lst s' ∧ n ≤ (lst s').getLastD 0 := by
  intro fuel
  induction fuel with
  | zero =>
    intro s hs hle
    refine ⟨s, ?_, hs, List.prefix_refl _, by omega⟩
    rw [PrimeSet.findLoop, if_neg (by omega)]
  | succ f ih =>
    intro s hs hle
    by_cases hc : (lst s).getLastD 0 < n
    · obtain ⟨s', p, he, hI', hP, hl⟩ := E.expandOk s hs
      have hlast' : (lst s').getLastD 0 = p := by rw [hl, List.getLastD_concat]
      obtain ⟨s'', h1, h2, h3, h4⟩ := ih s' hI' (by
        have := hP.2.1
        omega)
      refine ⟨s'', ?_, h2, ?_, h4⟩
      · rw [PrimeSet.findLoop, if_pos hc, he, Option.some_bind]
        exact h1
      · exact List.IsPrefix.trans ⟨[p], hl.symm⟩ h3
    · refine ⟨s, ?_, hs, List.prefix_refl _, by omega⟩
      rw [PrimeSet.findLoop, if_neg hc]

theorem isPrimeList_count {l : List Nat} (h : IsPrimeList l) {i : Nat} (hi : i < l.length) :
    Nat.count Nat.Prime (l.getD i 0) = i := by
  have hkey : (List.range (l.getD i 0)).filter (fun m => decide (Nat.Prime m)) = l.take i := by
    have hsf : ((List.range (l.getD i 0)).filter fun m => decide (Nat.Prime m)).Sorted (· < ·) :=
      (List.pairwise_lt_range _).filter _
    have hst : (l.take i).Sorted (· < ·) := h.2.1.take
    refine List.eq_of_perm_of_sorted ((List.perm_ext_iff_of_nodup hsf.nodup hst.nodup).2 ?_) hsf hst
    intro m
    rw [List.mem_filter, List.mem_range, List.mem_take_iff_getElem]
    constructor
    · rintro ⟨hlt, hpm⟩
      rw [decide_eq_true_eq] at hpm
      have hmle : m ≤ l.getLastD 0 := by
        have h2 := isPrimeList_mem_le h (isPrimeList_getD_mem hi)
        omega
      obtain ⟨j, hj, hje⟩ := List.mem_iff_getElem.1 (isPrimeList_complete h m hpm hmle)
      have hji : j < i := by
        by_contra hcon
        push_neg at hcon
        have := sorted_getD_le h.2.1 hcon hj
        rw [List.getD_eq_getElem l 0 hj, hje] at this
        omega
      exact ⟨j, by omega, hje⟩
    · rintro ⟨j, hj, hje⟩
      have hjlen : j < l.length := by omega
      have hji : j < i := by omega
      have hlt := isPrimeList_getD_lt h hji hi
      rw [List.getD_eq_getElem l 0 hjlen, hje] at hlt
      refine ⟨hlt, ?_⟩
      rw [decide_eq_true_eq]
      refine h.2.2.1 m ?_
      rw [← hje]
      exact List.getElem_mem hjlen
  rw [Nat.count, List.countP_eq_length_filter, hkey, List.length_take]
  omega

/-- `PrimeSet::find` on an invariant state: succeeds, and returns the least
prime `≥ n` together with its index in the prime sequence. -/
theorem find_ok (E : EngineOK expand lst Inv) {s : σ} (hs : Inv s) (n : Nat) :
    ∃ i p s', PrimeSet.find expand lst s n = some ((i, p), s') ∧ Inv s' ∧
      Nat.Prime p ∧ n ≤ p ∧ (∀ q, Nat.Prime q → n ≤ q → p ≤ q) ∧
      Nat.count Nat.Prime p = i ∧ i < (lst s').length ∧ (lst s').getD i 0 = p ∧
      n ≤ (lst s').getLastD 0 := by
  obtain ⟨s', h1, hI', hpre, hlast⟩ := findLoop_ok E n (n + 1) s hs (by omega)
  have hl' := E.listPrime s' hI'
  obtain ⟨i, hi, hfv, hni, hmin⟩ := find_vec_some hl' hlast
  refine ⟨i, (lst s').getD i 0, s', ?_, hI',
    hl'.2.2.1 _ (isPrimeList_getD_mem hi), hni, ?_, isPrimeList_count hl' hi, hi, rfl, hlast⟩
  · rw [PrimeSet.find, h1, Option.some_bind, hfv]
    rfl
  · intro q hq hnq
    rcases le_or_lt q ((lst s').getLastD 0) with hc | hc
    · exact find_vec_least hl' hi hmin q (isPrimeList_complete hl' q hq hc) hnq
    · have := isPrimeList_mem_le hl' (isPrimeList_getD_mem hi)
      omega

end EngineProofs

end Primes

namespace Primes

section EngineProofs2

variable {σ : Type} {expand : σ → Option σ} {lst : σ → List Nat} {Inv : σ → Prop}

theorem isPrimeList_getD_ge {l : List Nat} (h : IsPrimeList l) :
    ∀ i, i < l.length → i + 2 ≤ l.getD i 0 := by
  intro i
  induction i with
  | zero =>
    intro hi
    rw [isPrimeList_head h]
  | succ j ih =>
    intro hi
    show j + 1 + 2 ≤ l.getD (j + 1) 0
    have h1 := ih (by omega)
    have h2 : l.getD j 0 < l.getD (j + 1) 0 := isPrimeList_getD_lt h (by omega) (by omega)
    omega

/-- Every prime below a stream element is an earlier stream element. -/
theorem isPrimeList_below {l : List Nat} (h : IsPrimeList l) {i : Nat}
    (hi : i < l.length) {q : Nat} (hq : Nat.Prime q) (hlt : q < l.getD i 0) :
    ∃ j, j < i ∧ l.getD j 0 = q := by
  have hle : q ≤ l.getLastD 0 := by
    have := isPrimeList_mem_le h (isPrimeList_getD_mem hi)
    omega
  obtain ⟨j, hj, hje⟩ := List.mem_iff_getElem.1 (isPrimeList_complete h q hq hle)
  refine ⟨j, ?_, by rw [List.getD_eq_getElem l 0 hj, hje]⟩
  by_contra hcon
  push_neg at hcon
  have := sorted_getD_le h.2.1 hcon hj
  rw [List.getD_eq_getElem l 0 hj, hje] at this
  omega

theorem iterNext_ok (E : EngineOK expand lst Inv) :
    ∀ fuel s i, Inv s → i + 1 ≤ (lst s).length + fuel →
      ∃ v s', PrimeSet.iterNext expand lst fuel s i = some (v, s') ∧ Inv s' ∧
        lst s <+: lst s' ∧ i < (lst s').length ∧ (lst s').getD i 0 = v := by
  intro fuel
  induction fuel with
  | zero =>
    intro s i hs hle
    have hi : i < (lst s).length := by omega
    rw [PrimeSet.iterNext, if_pos hi]
    exact ⟨_, s, rfl, hs, List.prefix_refl _, hi, rfl⟩
  | succ f ih =>
    intro s i hs hle
    by_cases hi : i < (lst s).length
    · rw [PrimeSet.iterNext, if_pos hi]
      exact ⟨_, s, rfl, hs, List.prefix_refl _, hi, rfl⟩
    · obtain ⟨s', p, he, hI', hP, hl⟩ := E.expandOk s hs
      have hlen' : (lst s').length = (lst s).length + 1 := by rw [hl]; simp
      obtain ⟨v, s'', h1, h2, h3, h4, h5⟩ := ih s' i hI' (by omega)
      refine ⟨v, s'', ?_, h2, List.IsPrefix.trans ⟨[p], hl.symm⟩ h3, h4, h5⟩
      rw [PrimeSet.iterNext, if_neg hi, he, Option.some_bind]
      exact h1

end EngineProofs2

end Primes

namespace Primes

section EngineProofs3

variable {σ : Type} {expand : σ → Option σ} {lst : σ → List Nat} {Inv : σ → Prop}

theorem prefix_getD {l₁ l₂ : List Nat} (h : l₁ <+: l₂) {j : Nat} (hj : j < l₁.length) :
    l₂.getD j 0 = l₁.getD j 0 := by
  rw [List.getD_eq_getElem l₁ 0 hj, List.getD_eq_getElem l₂ 0 (lt_of_lt_of_le hj h.length_le)]
  exact (h.getElem hj).symm

theorem isPrimeLoop_ok (E : EngineOK expand lst Inv) {n : Nat} (hn : 3 ≤ n) :
    ∀ fuel s i, Inv s → i ≤ (lst s).length →
      (∀ j, j < i → ¬ (lst s).getD j 0 ∣ n) →
      (i = 0 ∨ (0 < i ∧ (lst s).getD (i - 1) 0 * (lst s).getD (i - 1) 0 ≤ n)) →
      n + 1 ≤ fuel + i →
      ∃ b s', PrimeSet.isPrimeLoop expand lst n fuel s i = some (b, s') ∧ Inv s' ∧
        (b = true ↔ Nat.Prime n) := by
  intro fuel
  induction fuel with
  | zero =>
    intro s i hs hilen hist hprev hfuel
    exfalso
    rcases hprev with rfl | ⟨hpos, hsq⟩
    · omega
    · have hge := isPrimeList_getD_ge (E.listPrime s hs) (i - 1) (by omega)
      have h1 : (lst s).getD (i - 1) 0 ≤ (lst s).getD (i - 1) 0 * (lst s).getD (i - 1) 0 :=
        Nat.le_mul_of_pos_left _ (by omega)
      omega
  | succ f ih =>
    intro s i hs hilen hist hprev hfuel
    obtain ⟨m, s1, hit, hI1, hpre, hilen1, hmv⟩ :=
      iterNext_ok E (i + 2) s i hs (by omega)
    have hl1 := E.listPrime s1 hI1
    have hmp : Nat.Prime m := by
      rw [← hmv]
      exact hl1.2.2.1 _ (isPrimeList_getD_mem hilen1)
    have hist1 : ∀ j, j < i → ¬ (lst s1).getD j 0 ∣ n := by
      intro j hj
      rw [prefix_getD hpre (by omega)]
      exact hist j hj
    rw [PrimeSet.isPrimeLoop, hit]
    simp only
    by_cases hdvd : n % m = 0
    · rw [if_pos hdvd]
      refine ⟨false, s1, rfl, hI1, ?_⟩
      simp only [Bool.false_eq_true, false_iff]
      have hmdvd : m ∣ n := Nat.dvd_of_mod_eq_zero hdvd
      intro hpn
      have hmn : m = n := by
        rcases (Nat.Prime.eq_one_or_self_of_dvd hpn m hmdvd) with h1 | h1
        · exact absurd h1 (by have := hmp.two_le; omega)
        · exact h1
      rcases hprev with rfl | ⟨hpos, hsq⟩
      · have := isPrimeList_head hl1
        omega
      · have hprev1 : (lst s1).getD (i - 1) 0 = (lst s).getD (i - 1) 0 :=
          prefix_getD hpre (by omega)
        set m' := (lst s1).getD (i - 1) 0 with hm'def
        have hsq1 : m' * m' ≤ n := by rw [hprev1]; exact hsq
        have hnext : IsNextPrime m' ((lst s1).getD (i - 1 + 1) 0) :=
          isPrimeList_isNext hl1 (by omega)
        have hieq : i - 1 + 1 = i := by omega
        rw [hieq, hmv, hmn] at hnext
        have hm'p : Nat.Prime m' :=
          hl1.2.2.1 _ (isPrimeList_getD_mem (show i - 1 < (lst s1).length by omega))
        obtain ⟨p, hp, hm'p2, hp2⟩ := Nat.exists_prime_lt_and_le_two_mul m' (by have := hm'p.two_le; omega)
        have hnp : n ≤ p := hnext.2.2 p hm'p2 hp
        have hm2 : 2 ≤ m' := hm'p.two_le
        have : m' ≤ 2 := by nlinarith
        have hm'2 : m' = 2 := by omega
        rw [hm'2] at hsq1
        rw [hm'2] at hp2
        have hn4 : n = 4 := by omega
        rw [hn4] at hpn
        exact absurd hpn (by decide)
    · rw [if_neg hdvd]
      by_cases hsqgt : m * m > n
      · rw [if_pos hsqgt]
        refine ⟨true, s1, rfl, hI1, ?_⟩
        simp only [true_iff]
        by_contra hcomp
        have hq := Nat.minFac_prime (by omega : n ≠ 1)
        have hqd := Nat.minFac_dvd n
        have hqsq : n.minFac * n.minFac ≤ n := by
          have := Nat.minFac_sq_le_self (by omega : 0 < n) hcomp
          nlinarith [this]
        have hqm : n.minFac < m := by nlinarith
        obtain ⟨j, hj, hje⟩ := isPrimeList_below hl1 hilen1 hq (by omega)
        exact absurd (hje ▸ hist1 j hj) (by simp [hqd])
      · rw [if_neg hsqgt]
        have hist2 : ∀ j, j < i + 1 → ¬ (lst s1).getD j 0 ∣ n := by
          intro j hj
          rcases Nat.lt_or_ge j i with hc | hc
          · exact hist1 j hc
          · have : j = i := by omega
            subst this
            rw [hmv]
            exact fun hd => hdvd (Nat.mod_eq_zero_of_dvd hd)
        obtain ⟨b, s2, h1, h2, h3⟩ := ih s1 (i + 1) hI1 (by omega) hist2
          (Or.inr ⟨by omega, by
            simp only [Nat.add_sub_cancel]
            rw [hmv]
            omega⟩)
          (by omega)
        exact ⟨b, s2, h1, h2, h3⟩

/-- `PrimeSet::is_prime` on an invariant state agrees with true primality. -/
theorem is_prime_ok (E : EngineOK expand lst Inv) {s : σ} (hs : Inv s) (n : Nat) :
    ∃ b s', PrimeSet.is_prime expand lst s n = some (b, s') ∧ Inv s' ∧
      (b = true ↔ Nat.Prime n) := by
  rcases Nat.lt_or_ge n 2 with hc | hc
  · refine ⟨false, s, ?_, hs, ?_⟩
    · rw [PrimeSet.is_prime, if_pos (by omega)]
    · simp only [Bool.false_eq_true, false_iff]
      intro hp
      have := hp.two_le
      omega
  · rcases Nat.eq_or_lt_of_le hc with rfl | hc2
    · refine ⟨true, s, ?_, hs, by simp [Nat.prime_two]⟩
      rw [PrimeSet.is_prime, if_neg (by omega), if_pos rfl]
    · obtain ⟨b, s', h1, h2, h3⟩ := isPrimeLoop_ok E (show 3 ≤ n by omega) (n + 2) s 0 hs
        (Nat.zero_le _) (fun j hj => absurd hj (Nat.not_lt_zero j)) (Or.inl rfl)
        (show n + 1 ≤ n + 2 + 0 by omega)
      refine ⟨b, s', ?_, h2, h3⟩
      rw [PrimeSet.is_prime, if_neg (show ¬ n ≤ 1 by omega), if_neg (show ¬ n = 2 by omega)]
      exact h1

end EngineProofs3

end Primes

namespace Primes

section EngineProofs4

variable {σ : Type} {expand : σ → Option σ} {lst : σ → List Nat} {Inv : σ → Prop}

theorem pfInner_ok {p : Nat} (hp : 2 ≤ p) :
    ∀ fuel curn acc, 2 ≤ curn → curn ≤ fuel →
      ∃ k curn', PrimeSet.pfInner p fuel curn acc =
          some (curn', acc ++ List.replicate k p, decide (curn' = 1)) ∧
        curn = p ^ k * curn' ∧ (curn' = 1 → 1 ≤ k) ∧
        (¬ curn' = 1 → ¬ p ∣ curn') ∧ 1 ≤ curn' := by
  intro fuel
  induction fuel with
  | zero => intro curn acc h2 hle; omega
  | succ f ih =>
    intro curn acc h2 hle
    by_cases hdvd : curn % p = 0
    · have hdv : p ∣ curn := Nat.dvd_of_mod_eq_zero hdvd
      by_cases hone : curn / p = 1
      · refine ⟨1, 1, ?_, ?_, fun _ => le_refl 1, fun h => absurd rfl h, le_refl 1⟩
        · rw [PrimeSet.pfInner, if_pos (by simp [hdvd]), if_pos hone]
          simp [hone]
        · rw [pow_one, mul_one]
          have h3 := Nat.div_mul_cancel hdv
          rw [hone, one_mul] at h3
          omega
      · have hc1 : 1 ≤ curn / p := Nat.div_pos (Nat.le_of_dvd (by omega) hdv) (by omega)
        have hc2 : 2 ≤ curn / p := by omega
        have hlt : curn / p < curn := Nat.div_lt_self (by omega) (by omega)
        have hlef : curn / p ≤ f := by omega
        obtain ⟨k, curn', hres, heq, hk1, hnd, hc⟩ := ih (curn / p) (acc ++ [p]) hc2 hlef
        have hrep : (acc ++ [p]) ++ List.replicate k p = acc ++ List.replicate (k + 1) p := by
          rw [List.append_assoc, List.replicate_succ]
          rfl
        refine ⟨k + 1, curn', ?_, ?_, fun _ => by omega, hnd, hc⟩
        · rw [PrimeSet.pfInner, if_pos (by simp [hdvd]), if_neg hone, hres, hrep]
        · have := Nat.div_mul_cancel hdv
          rw [pow_succ]
          calc curn = curn / p * p := (Nat.div_mul_cancel hdv).symm
          _ = p ^ k * curn' * p := by rw [heq]
          _ = p ^ k * p * curn' := by ring
      -- done
    · refine ⟨0, curn, ?_, by simp, by omega, fun _ hd => hdvd (Nat.mod_eq_zero_of_dvd hd), by omega⟩
      rw [PrimeSet.pfInner, if_neg (by simp [hdvd]), List.replicate_zero, List.append_nil,
        decide_eq_false (by omega : ¬ curn = 1)]

theorem pfLoop_ok (E : EngineOK expand lst Inv) {n : Nat} :
    ∀ fuel s i curn acc, Inv s → i ≤ (lst s).length → 2 ≤ curn → curn ≤ n →
      (∀ j, j < i → ¬ (lst s).getD j 0 ∣ curn) →
      (i = 0 ∨ (0 < i ∧ (lst s).getD (i - 1) 0 * (lst s).getD (i - 1) 0 ≤ n)) →
      acc.Sorted (· ≤ ·) → (∀ x ∈ acc, Nat.Prime x) →
      (∀ x ∈ acc, ∀ q, Nat.Prime q → q ∣ curn → x ≤ q) →
      n + 1 ≤ fuel + i →
      ∃ r s', PrimeSet.pfLoop expand lst fuel s i curn acc = some (r, s') ∧ Inv s' ∧
        r.prod = acc.prod * curn ∧ r.Sorted (· ≤ ·) ∧ (∀ x ∈ r, Nat.Prime x) := by
  intro fuel
  induction fuel with
  | zero =>
    intro s i curn acc hs hilen h2 hcn hist hprev hsort hallp hle hfuel
    exfalso
    rcases hprev with rfl | ⟨hpos, hsq⟩
    · omega
    · have hge := isPrimeList_getD_ge (E.listPrime s hs) (i - 1) (by omega)
      have h1 : (lst s).getD (i - 1) 0 ≤ (lst s).getD (i - 1) 0 * (lst s).getD (i - 1) 0 :=
        Nat.le_mul_of_pos_left _ (by omega)
      omega
  | succ f ih =>
    intro s i curn acc hs hilen h2 hcn hist hprev hsort hallp hle hfuel
    obtain ⟨p, s1, hit, hI1, hpre, hilen1, hpv⟩ :=
      iterNext_ok E (i + 2) s i hs (by omega)
    have hl1 := E.listPrime s1 hI1
    have hpp : Nat.Prime p := by
      rw [← hpv]
      exact hl1.2.2.1 _ (isPrimeList_getD_mem hilen1)
    have hist1 : ∀ j, j < i → ¬ (lst s1).getD j 0 ∣ curn := by
      intro j hj
      rw [prefix_getD hpre (by omega)]
      exact hist j hj
    -- primes below p do not divide curn
    have hbelow : ∀ q, Nat.Prime q → q < p → ¬ q ∣ curn := by
      intro q hq hqp
      obtain ⟨j, hj, hje⟩ := isPrimeList_below hl1 hilen1 hq (by omega)
      rw [← hje]
      exact hist1 j hj
    obtain ⟨k, curn', hres, heq, hk1, hnd, hc1⟩ :=
      pfInner_ok hpp.two_le (curn + 1) curn acc h2 (by omega)
    have hdvd' : curn' ∣ curn := ⟨p ^ k, by rw [heq]; ring⟩
    have hacc2_sorted : (acc ++ List.replicate k p).Sorted (· ≤ ·) := by
      rw [List.Sorted, List.pairwise_append]
      refine ⟨hsort, List.pairwise_replicate.2 (Or.inr (le_refl p)), ?_⟩
      intro a ha b hb
      rw [List.mem_replicate] at hb
      have hpd : p ∣ curn := by
        rcases Nat.eq_zero_or_pos k with rfl | hk
        · exact absurd rfl hb.1
        · exact dvd_trans (dvd_pow_self p (show k ≠ 0 by omega)) ⟨curn', by rw [heq]⟩
      rw [hb.2]
      exact hle a ha p hpp hpd
    have hacc2_prime : ∀ x ∈ acc ++ List.replicate k p, Nat.Prime x := by
      intro x hx
      rcases List.mem_append.1 hx with hx | hx
      · exact hallp x hx
      · rw [List.mem_replicate] at hx
        rw [hx.2]
        exact hpp
    rw [PrimeSet.pfLoop, hit]
    simp only
    rw [hres]
    simp only
    by_cases hone : curn' = 1
    · rw [if_pos (by simp [hone])]
      refine ⟨acc ++ List.replicate k p, s1, rfl, hI1, ?_, hacc2_sorted, hacc2_prime⟩
      rw [List.prod_append, List.prod_replicate, heq, hone]
      ring
    · rw [if_neg (by simp [hone])]
      have hc2' : 2 ≤ curn' := by omega
      have hpnd : ¬ p ∣ curn' := hnd hone
      have hplecurn' : p < curn' := by
        rcases Nat.lt_trichotomy p curn' with hlt | heq2 | hgt
        · exact hlt
        · exact absurd (heq2 ▸ dvd_refl p) hpnd
        · exfalso
          have hqprime : Nat.Prime curn'.minFac := Nat.minFac_prime (by omega)
          have hqd : curn'.minFac ∣ curn' := Nat.minFac_dvd curn'
          have hqlt : curn'.minFac < p := lt_of_le_of_lt (Nat.minFac_le (by omega)) hgt
          exact hbelow _ hqprime hqlt (dvd_trans hqd hdvd')
      by_cases hsq : p * p > curn'
      · rw [if_pos hsq]
        have hcprime : Nat.Prime curn' := by
          by_contra hcomp
          have hqprime : Nat.Prime curn'.minFac := Nat.minFac_prime (by omega)
          have hqd : curn'.minFac ∣ curn' := Nat.minFac_dvd curn'
          have hqsq : curn'.minFac * curn'.minFac ≤ curn' := by
            have := Nat.minFac_sq_le_self (by omega : 0 < curn') hcomp
            nlinarith [this]
          have hqlt : curn'.minFac < p := by nlinarith
          exact hbelow _ hqprime hqlt (dvd_trans hqd hdvd')
        refine ⟨acc ++ List.replicate k p ++ [curn'], s1, rfl, hI1, ?_, ?_, ?_⟩
        · rw [List.prod_append, List.prod_append, List.prod_replicate, List.prod_singleton, heq]
          ring
        · rw [List.Sorted, List.pairwise_append]
          refine ⟨hacc2_sorted, List.pairwise_singleton _ _, ?_⟩
          intro a ha b hb
          rw [List.mem_singleton] at hb
          rw [hb]
          rcases List.mem_append.1 ha with ha | ha
          · exact hle a ha curn' hcprime hdvd'
          · rw [List.mem_replicate] at ha
            rw [ha.2]
            omega
        · intro x hx
          rcases List.mem_append.1 hx with hx | hx
          · exact hacc2_prime x hx
          · rw [List.mem_singleton] at hx
            rw [hx]
            exact hcprime
      · rw [if_neg hsq]
        have hcurn'n : curn' ≤ n := le_trans (Nat.le_of_dvd (by omega) hdvd') hcn
        obtain ⟨r, s2, h1, h2', h3, h4, h5⟩ := ih s1 (i + 1) curn' (acc ++ List.replicate k p)
          hI1 (by omega) hc2' hcurn'n
          (by
            intro j hj
            rcases Nat.lt_or_ge j i with hc | hc
            · intro hd
              exact hist1 j hc (dvd_trans hd hdvd')
            · have : j = i := by omega
              subst this
              rw [hpv]
              exact hpnd)
          (Or.inr ⟨by omega, by
            simp only [Nat.add_sub_cancel]
            rw [hpv]
            omega⟩)
          hacc2_sorted hacc2_prime
          (by
            intro x hx q hq hqd
            rcases List.mem_append.1 hx with hx | hx
            · exact hle x hx q hq (dvd_trans hqd hdvd')
            · rw [List.mem_replicate] at hx
              rw [hx.2]
              by_contra hcon
              push_neg at hcon
              exact hbelow q hq hcon (dvd_trans hqd hdvd'))
          (by omega)
        refine ⟨r, s2, h1, h2', ?_, h4, h5⟩
        rw [h3, List.prod_append, List.prod_replicate, heq]
        ring

/-- `PrimeSet::prime_factors` on an invariant state, for `n ≥ 2`: a sorted
list of primes whose product is `n`. -/
theorem prime_factors_ok (E : EngineOK expand lst Inv) {s : σ} (hs : Inv s)
    {n : Nat} (hn : 2 ≤ n) :
    ∃ r s', PrimeSet.prime_factors expand lst s n = some (r, s') ∧ Inv s' ∧
      r.prod = n ∧ r.Sorted (· ≤ ·) ∧ (∀ x ∈ r, Nat.Prime x) := by
  obtain ⟨r, s', h1, h2, h3, h4, h5⟩ := pfLoop_ok E (n + 2) s 0 n [] hs (Nat.zero_le _)
    hn (le_refl n) (fun j hj => absurd hj (Nat.not_lt_zero j)) (Or.inl rfl)
    List.sorted_nil (fun x hx => absurd hx (List.not_mem_nil x))
    (fun x hx => absurd hx (List.not_mem_nil x)) (by omega)
  refine ⟨r, s', ?_, h2, ?_, h4, h5⟩
  · rw [PrimeSet.prime_factors, if_neg (by omega)]
    exact h1
  · rw [h3, List.prod_nil, one_mul]

end EngineProofs4

end Primes

namespace Primes

/-! The standalone one-shot primitives: `firstfac`, `factors`,
`factors_uniq`, free `is_prime`. -/

theorem firstfacAux_eq_minFacAux :
    ∀ j x k, 1 ≤ k → x + 2 - k ≤ j → firstfacAux x k = Nat.minFacAux x k := by
  intro j
  induction j with
  | zero =>
    intro x k hk hj
    rw [firstfacAux, Nat.minFacAux]
    have hkx : x < k * k := by
      have h1 : x + 2 ≤ k := by omega
      have h2 : k ≤ k * k := Nat.le_mul_of_pos_left k (by omega)
      omega
    rw [if_neg (show ¬ k * k ≤ x by omega), if_pos hkx]
  | succ j ih =>
    intro x k hk hj
    rw [firstfacAux, Nat.minFacAux]
    by_cases hsq : k * k ≤ x
    · rw [if_pos hsq, if_neg (show ¬ x < k * k by omega)]
      have hkx : k ≤ x := by
        have h2 : k ≤ k * k := Nat.le_mul_of_pos_left k (by omega)
        omega
      by_cases hdvd : x % k = 0
      · rw [if_pos hdvd, if_pos (Nat.dvd_of_mod_eq_zero hdvd)]
      · rw [if_neg hdvd, if_neg (fun hd => hdvd (Nat.mod_eq_zero_of_dvd hd))]
        exact ih x (k + 2) (by omega) (by omega)
    · rw [if_neg hsq, if_pos (show x < k * k by omega)]

theorem firstfac_eq_minFac (x : Nat) : firstfac x = Nat.minFac x := by
  rw [firstfac, Nat.minFac_eq]
  by_cases h : x % 2 = 0
  · rw [if_pos h, if_pos (Nat.dvd_of_mod_eq_zero h)]
  · rw [if_neg h, if_neg (fun hd => h (Nat.mod_eq_zero_of_dvd hd))]
    exact firstfacAux_eq_minFacAux (x + 2) x 3 (by omega) (by omega)

/-- The free `is_prime` decides true primality. -/
theorem is_prime_eq (n : Nat) : is_prime n = decide (Nat.Prime n) := by
  rw [is_prime]
  by_cases h : n ≤ 1
  · rw [if_pos h, eq_comm]
    rw [decide_eq_false]
    intro hp
    have := hp.two_le
    omega
  · rw [if_neg h, firstfac_eq_minFac, decide_eq_decide]
    rw [Nat.prime_def_minFac]
    constructor
    · intro he
      exact ⟨by omega, he⟩
    · intro he
      exact he.2

theorem factorsLoop_eq : ∀ curn, 2 ≤ curn → factorsLoop curn = curn.primeFactorsList := by
  intro curn
  induction curn using Nat.strong_induction_on with
  | _ curn ih =>
    intro h2
    have hm := firstfac_eq_minFac curn
    have hmp : Nat.Prime curn.minFac := Nat.minFac_prime (by omega)
    rw [factorsLoop]
    simp only [hm]
    by_cases hp : Nat.Prime curn
    · have he : curn.minFac = curn := (Nat.prime_def_minFac.1 hp).2
      rw [dif_neg (by omega), he, (Nat.primeFactorsList_prime hp)]
    · have hne : curn.minFac ≠ curn := fun he => hp (Nat.prime_def_minFac.2 ⟨h2, he⟩)
      have hlt : curn.minFac < curn := lt_of_le_of_ne (Nat.minFac_le (by omega)) hne
      rw [dif_pos ⟨hmp.two_le, hlt⟩]
      have hdecomp : curn.primeFactorsList =
          curn.minFac :: (curn / curn.minFac).primeFactorsList := by
        obtain ⟨j, rfl⟩ : ∃ j, curn = j + 2 := ⟨curn - 2, by omega⟩
        rw [Nat.primeFactorsList]
      rw [hdecomp]
      congr 1
      have hd2 : 2 ≤ curn / curn.minFac :=
        le_trans hmp.two_le (Nat.minFac_le_div (by omega) hp)
      exact ih _ (Nat.div_lt_self (by omega) hmp.one_lt) hd2

theorem factors_eq (x : Nat) : factors x = x.primeFactorsList := by
  rw [factors]
  by_cases h : x ≤ 1
  · rw [if_pos h]
    interval_cases x
    · rw [Nat.primeFactorsList_zero]
    · rw [Nat.primeFactorsList_one]
  · rw [if_neg h]
    exact factorsLoop_eq x (by omega)

end Primes

namespace Primes

theorem stripAllS_spec {q : Nat} (hq : 2 ≤ q) :
    ∀ c, 1 ≤ c → ∃ j, c = q ^ j * (stripAllS q c).1 ∧ ¬ q ∣ (stripAllS q c).1 ∧
      1 ≤ (stripAllS q c).1 := by
  intro c
  induction c using Nat.strong_induction_on with
  | _ c ih =>
    intro hc
    by_cases h : c % q = 0 ∧ 2 ≤ q ∧ 0 < c
    · have hdv : q ∣ c := Nat.dvd_of_mod_eq_zero h.1
      have hcq : 1 ≤ c / q := Nat.div_pos (Nat.le_of_dvd (by omega) hdv) (by omega)
      have hlt : c / q < c := Nat.div_lt_self (by omega) (by omega)
      obtain ⟨j, he, hnd, h1⟩ := ih (c / q) hlt hcq
      have hval : (stripAllS q c).1 = (stripAllS q (c / q)).1 := by
        rw [stripAllS, dif_pos h]
      refine ⟨j + 1, ?_, by rw [hval]; exact hnd, by rw [hval]; exact h1⟩
      rw [hval, pow_succ]
      calc c = c / q * q := (Nat.div_mul_cancel hdv).symm
      _ = q ^ j * (stripAllS q (c / q)).1 * q := by rw [← he]
      _ = q ^ j * q * (stripAllS q (c / q)).1 := by ring
    · have hval : (stripAllS q c).1 = c := by
        rw [stripAllS, dif_neg h]
      refine ⟨0, by rw [hval, pow_zero, one_mul], ?_, by omega⟩
      rw [hval]
      intro hdv
      exact h ⟨Nat.mod_eq_zero_of_dvd hdv, hq, by omega⟩

theorem primeFactorsList_cons_minFac {c : Nat} (hc : 2 ≤ c) :
    c.primeFactorsList = c.minFac :: (c / c.minFac).primeFactorsList := by
  obtain ⟨j, rfl⟩ : ∃ j, c = j + 2 := ⟨c - 2, by omega⟩
  rw [Nat.primeFactorsList]

/-- `primeFactorsList` of `q ^ j * r` when every prime factor of `r` is at
least `q`. -/
theorem pfl_pow_mul {q r : Nat} (hq : Nat.Prime q) (hr1 : 1 ≤ r)
    (hfac : ∀ p, Nat.Prime p → p ∣ r → q ≤ p) :
    ∀ j, (q ^ j * r).primeFactorsList = List.replicate j q ++ r.primeFactorsList := by
  intro j
  induction j with
  | zero => simp
  | succ j ih =>
    have hc2 : 2 ≤ q ^ (j + 1) * r := by
      have h1 : 2 ≤ q ^ (j + 1) := le_trans hq.two_le (Nat.le_self_pow (by omega) q)
      nlinarith
    have hmf : (q ^ (j + 1) * r).minFac = q := by
      refine le_antisymm (Nat.minFac_le_of_dvd hq.two_le ?_) ?_
      · exact Dvd.dvd.mul_right (dvd_pow_self q (by omega)) r
      · have hd := Nat.minFac_dvd (q ^ (j + 1) * r)
        have hp := Nat.minFac_prime (show q ^ (j + 1) * r ≠ 1 by
          intro h1
          rw [h1] at hc2
          omega)
        rcases (Nat.Prime.dvd_mul hp).1 hd with hd1 | hd1
        · have hqd := (Nat.Prime.dvd_of_dvd_pow hp) hd1
          have heqq := (Nat.prime_dvd_prime_iff_eq hp hq).1 hqd
          omega
        · exact hfac _ hp hd1
    have hdecomp := primeFactorsList_cons_minFac hc2
    have hdiv : (q ^ (j + 1) * r) / q = q ^ j * r := by
      rw [pow_succ]
      calc q ^ j * q * r / q = q * (q ^ j * r) / q := by ring_nf
      _ = q ^ j * r := Nat.mul_div_cancel_left _ hq.pos
    rw [hdecomp, hmf, hdiv, ih, List.replicate_succ]
    rfl

theorem destutter'_replicate_append (q : Nat) :
    ∀ j (l : List Nat),
      List.destutter' (· ≠ ·) q (List.replicate j q ++ l) =
        List.destutter' (· ≠ ·) q l := by
  intro j
  induction j with
  | zero => intro l; rw [List.replicate_zero, List.nil_append]
  | succ j ih =>
    intro l
    rw [List.replicate_succ, List.cons_append,
      List.destutter'_cons_neg _ (show ¬ q ≠ q from fun h => h rfl)]
    exact ih l

theorem fuLoop_eq : ∀ curn, 2 ≤ curn →
    fuLoop curn = List.destutter (· ≠ ·) curn.primeFactorsList ∧
      (fuLoop curn).Sorted (· < ·) ∧ ∀ e ∈ fuLoop curn, curn.minFac ≤ e := by
  intro curn
  induction curn using Nat.strong_induction_on with
  | _ curn ih =>
    intro h2
    have hm := firstfac_eq_minFac curn
    have hmp : Nat.Prime curn.minFac := Nat.minFac_prime (by omega)
    by_cases hp : Nat.Prime curn
    · have he : curn.minFac = curn := (Nat.prime_def_minFac.1 hp).2
      have hres : fuLoop curn = [curn.minFac] := by
        rw [fuLoop]
        simp only [hm]
        rw [dif_neg (by omega)]
      rw [hres, Nat.primeFactorsList_prime hp, List.destutter_singleton, he]
      refine ⟨rfl, List.sorted_singleton _, ?_⟩
      intro e hee
      rw [List.mem_singleton] at hee
      omega
    · have hne : curn.minFac ≠ curn := fun he => hp (Nat.prime_def_minFac.2 ⟨h2, he⟩)
      have hlt : curn.minFac < curn := lt_of_le_of_ne (Nat.minFac_le (by omega)) hne
      have hdvd : curn % curn.minFac = 0 := Nat.mod_eq_zero_of_dvd (Nat.minFac_dvd curn)
      have hguard : 2 ≤ curn.minFac ∧ curn.minFac < curn ∧ curn % curn.minFac = 0 :=
        ⟨hmp.two_le, hlt, hdvd⟩
      obtain ⟨j, hje, hjnd, hj1⟩ := stripAllS_spec hmp.two_le curn (by omega)
      set curn' := (stripAllS curn.minFac curn).1 with hcdef
      have hj0 : 1 ≤ j := by
        rcases Nat.eq_zero_or_pos j with rfl | h
        · rw [pow_zero, one_mul] at hje
          rw [← hje] at hjnd
          exact absurd (Nat.minFac_dvd curn) hjnd
        · exact h
      have hfac : ∀ p, Nat.Prime p → p ∣ curn' → curn.minFac ≤ p := by
        intro p hpp hpd
        refine Nat.minFac_le_of_dvd hpp.two_le ?_
        refine dvd_trans hpd ?_
        rw [hje]
        exact Dvd.dvd.mul_left dvd_rfl _
      have hpfl : curn.primeFactorsList =
          List.replicate j curn.minFac ++ curn'.primeFactorsList := by
        conv_lhs => rw [hje]
        exact pfl_pow_mul hmp hj1 hfac j
      obtain ⟨j', rfl⟩ : ∃ j', j = j' + 1 := ⟨j - 1, by omega⟩
      have hdest : List.destutter (· ≠ ·) curn.primeFactorsList =
          List.destutter' (· ≠ ·) curn.minFac curn'.primeFactorsList := by
        rw [hpfl, List.replicate_succ, List.cons_append, List.destutter_cons',
          destutter'_replicate_append]
      by_cases hone : curn' = 1
      · have hres : fuLoop curn = [curn.minFac] := by
          rw [fuLoop]
          simp only [hm]
          rw [dif_pos hguard, congrArg (fun a => (stripAllS a curn).1) hm, ← hcdef,
            if_pos hone]
        rw [hres, hdest, hone, Nat.primeFactorsList_one, List.destutter'_nil]
        refine ⟨rfl, List.sorted_singleton _, ?_⟩
        intro e hee
        rw [List.mem_singleton] at hee
        omega
      · have hc2' : 2 ≤ curn' := by omega
        have hlt' : curn' < curn := by
          have h1 : 2 ≤ curn.minFac ^ (j' + 1) :=
            le_trans hmp.two_le (Nat.le_self_pow (by omega) _)
          nlinarith [hje]
        obtain ⟨ihe, ihs, ihm⟩ := ih curn' hlt' hc2'
        have hres : fuLoop curn = curn.minFac :: fuLoop curn' := by
          rw [fuLoop]
          simp only [hm]
          rw [dif_pos hguard, congrArg (fun a => (stripAllS a curn).1) hm, ← hcdef,
            if_neg hone]
        have hmf' : curn.minFac < curn'.minFac := by
          have hge : curn.minFac ≤ curn'.minFac :=
            hfac _ (Nat.minFac_prime (by omega)) (Nat.minFac_dvd _)
          rcases Nat.eq_or_lt_of_le hge with he | he
          · exfalso
            exact hjnd (he ▸ Nat.minFac_dvd curn')
          · exact he
        have hpfl' := primeFactorsList_cons_minFac hc2'
        have hdest2 : List.destutter' (· ≠ ·) curn.minFac curn'.primeFactorsList =
            curn.minFac :: List.destutter (· ≠ ·) curn'.primeFactorsList := by
          rw [hpfl', List.destutter'_cons_pos _ (show curn.minFac ≠ curn'.minFac by omega),
            ← List.destutter_cons']
        refine ⟨?_, ?_, ?_⟩
        · rw [hres, hdest, hdest2, ihe]
        · rw [hres, List.sorted_cons]
          refine ⟨?_, ihs⟩
          intro b hb
          have := ihm b hb
          omega
        · intro e hee
          rw [hres, List.mem_cons] at hee
          rcases hee with rfl | hee
          · exact le_refl _
          · have := ihm e hee
            omega

/-- `factors_uniq` equals `factors` with consecutive duplicates removed, and
is strictly increasing. -/
theorem factors_uniq_eq {x : Nat} (hx : 2 ≤ x) :
    factors_uniq x = List.destutter (· ≠ ·) (factors x) ∧
      (factors_uniq x).Sorted (· < ·) := by
  obtain ⟨h1, h2, _⟩ := fuLoop_eq x hx
  have hfu : factors_uniq x = fuLoop x := by
    rw [factors_uniq, if_neg (by omega)]
  rw [hfu, factors_eq]
  exact ⟨h1, h2⟩

end Primes

namespace Primes

/-! The Wheel-30 stepper. -/

theorem wheel_next_fst (w : Wheel30) : (w.next).1 = w.value := by
  rw [Wheel30.next, Wheel30.value]
  split <;> rfl

theorem wheel_next_valid {w : Wheel30} (h : w.Valid) : (w.next).2.Valid := by
  obtain ⟨hb, hix⟩ := h
  rw [Wheel30.next]
  by_cases hc : w.ix + 1 ≥ WHEEL30.length
  · rw [if_pos hc]
    refine ⟨?_, ?_⟩
    · show (w.base + 30) % 30 = 0
      omega
    · show (0 : Nat) < 8
      omega
  · rw [if_neg hc]
    refine ⟨hb, ?_⟩
    show w.ix + 1 < 8
    simp only [WHEEL30, List.length_cons, List.length_nil] at hc
    omega

theorem wheel_next_value_gt {w : Wheel30} (h : w.Valid) :
    w.value < (w.next).2.value := by
  obtain ⟨hb, hix⟩ := h
  simp only [Wheel30.next, Wheel30.value]
  interval_cases w.ix <;> simp [WHEEL30]

theorem coprime30_shift {b k : Nat} (hb : b % 30 = 0) :
    Nat.Coprime (b + k) 30 ↔ Nat.Coprime (k % 30) 30 := by
  obtain ⟨t, rfl⟩ : ∃ t, b = 30 * t := ⟨b / 30, by omega⟩
  rw [Nat.Coprime, Nat.Coprime, Nat.gcd_comm (30 * t + k) 30, Nat.gcd_rec]
  have hmod : (30 * t + k) % 30 = k % 30 := by omega
  rw [hmod]

theorem wheel_value_coprime {w : Wheel30} (h : w.Valid) :
    Nat.Coprime w.value 30 := by
  obtain ⟨hb, hix⟩ := h
  rw [Wheel30.value, coprime30_shift hb]
  interval_cases w.ix <;> decide

theorem wheel_gap {w : Wheel30} (h : w.Valid) :
    ∀ m, w.value < m → m < (w.next).2.value → ¬ Nat.Coprime m 30 := by
  obtain ⟨hb, hix⟩ := h
  intro m h1 h2
  simp only [Wheel30.next, Wheel30.value] at h1 h2
  have hm : m = w.base + (m - w.base) := by
    have : w.base ≤ m := by
      have : WHEEL30.getD w.ix 0 ≥ 0 := Nat.zero_le _
      omega
    omega
  rw [hm, coprime30_shift hb]
  interval_cases w.ix <;>
    simp [WHEEL30] at h1 h2 <;>
    set d := m - w.base with hd <;>
    (have hdb : d < 31 := by omega) <;>
    (have hda : 0 < d := by omega) <;>
    interval_cases d <;> first
      | omega
      | decide

end Primes

namespace Primes

/-! The sorted-list model of the sieve's binary heap. -/

theorem pairLe_total (e f : Nat × Nat) : pairLe e f ∨ pairLe f e := by
  show (e.1 < f.1 ∨ (e.1 = f.1 ∧ e.2 ≤ f.2)) ∨ (f.1 < e.1 ∨ (f.1 = e.1 ∧ f.2 ≤ e.2))
  omega

theorem pairLe_trans {e f g : Nat × Nat} (h1 : pairLe e f) (h2 : pairLe f g) :
    pairLe e g := by
  have h1' : e.1 < f.1 ∨ (e.1 = f.1 ∧ e.2 ≤ f.2) := h1
  have h2' : f.1 < g.1 ∨ (f.1 = g.1 ∧ f.2 ≤ g.2) := h2
  show e.1 < g.1 ∨ (e.1 = g.1 ∧ e.2 ≤ g.2)
  omega

theorem heapPush_perm (e : Nat × Nat) :
    ∀ l : List (Nat × Nat), List.Perm (heapPush e l) (e :: l) := by
  intro l
  induction l with
  | nil => rw [heapPush]
  | cons f rest ih =>
    rw [heapPush]
    by_cases hc : e.1 < f.1 ∨ (e.1 = f.1 ∧ e.2 ≤ f.2)
    · rw [if_pos hc]
    · rw [if_neg hc]
      exact List.Perm.trans (List.Perm.cons f ih) (List.Perm.swap e f rest)

theorem heapPush_sorted {e : Nat × Nat} :
    ∀ {l : List (Nat × Nat)}, l.Sorted pairLe → (heapPush e l).Sorted pairLe := by
  intro l
  induction l with
  | nil => intro _; rw [heapPush]; exact List.sorted_singleton e
  | cons f rest ih =>
    intro hs
    rw [heapPush]
    obtain ⟨hf, hrest⟩ := List.sorted_cons.1 hs
    by_cases hc : e.1 < f.1 ∨ (e.1 = f.1 ∧ e.2 ≤ f.2)
    · rw [if_pos hc]
      rw [List.sorted_cons]
      refine ⟨?_, hs⟩
      intro b hb
      rcases List.mem_cons.1 hb with heb | hb
      · rw [heb]
        exact hc
      · exact pairLe_trans (show pairLe e f from hc) (hf b hb)
    · rw [if_neg hc]
      rw [List.sorted_cons]
      refine ⟨?_, ih hrest⟩
      intro b hb
      have hb2 := (heapPush_perm e rest).mem_iff.1 hb
      rcases List.mem_cons.1 hb2 with heb | hb2
      · rw [heb]
        show f.1 < e.1 ∨ (f.1 = e.1 ∧ f.2 ≤ e.2)
        push_neg at hc
        rcases Nat.lt_trichotomy f.1 e.1 with h3 | h3 | h3
        · exact Or.inl h3
        · refine Or.inr ⟨h3, ?_⟩
          have h5 := hc.2 h3.symm
          omega
        · have h5 := hc.1
          omega
      · exact hf b hb2

/-- The head of the sorted heap has the minimal composite. -/
theorem heap_head_min {l : List (Nat × Nat)} (hs : l.Sorted pairLe)
    {c0 q0 : Nat} (hh : l.head? = some (c0, q0)) :
    ∀ e ∈ l, c0 ≤ e.1 := by
  cases l with
  | nil => intro e he; exact absurd he (List.not_mem_nil e)
  | cons f rest =>
    rw [List.head?_cons, Option.some_inj] at hh
    intro e he
    rcases List.mem_cons.1 he with he2 | he2
    · rw [he2, hh]
    · have h3 := (List.sorted_cons.1 hs).1 e he2
      rw [hh] at h3
      have h4 : c0 < e.1 ∨ (c0 = e.1 ∧ q0 ≤ e.2) := h3
      omega

end Primes

namespace Primes

/-! Auxiliary facts for the sieve invariant. -/

theorem coprime30_not_dvd {m : Nat} (h : Nat.Coprime m 30) :
    ¬ 2 ∣ m ∧ ¬ 3 ∣ m ∧ ¬ 5 ∣ m := by
  rw [Nat.Coprime] at h
  refine ⟨fun hd => ?_, fun hd => ?_, fun hd => ?_⟩
  · have h1 : (2 : Nat) ∣ Nat.gcd m 30 := Nat.dvd_gcd hd (by norm_num)
    rw [h] at h1
    omega
  · have h1 : (3 : Nat) ∣ Nat.gcd m 30 := Nat.dvd_gcd hd (by norm_num)
    rw [h] at h1
    omega
  · have h1 : (5 : Nat) ∣ Nat.gcd m 30 := Nat.dvd_gcd hd (by norm_num)
    rw [h] at h1
    omega

theorem prime_coprime30 {p : Nat} (hp : Nat.Prime p) (h5 : 5 < p) :
    Nat.Coprime p 30 := by
  rw [Nat.Prime.coprime_iff_not_dvd hp]
  intro hd
  have hle : p ≤ 30 := Nat.le_of_dvd (by norm_num) hd
  interval_cases p <;> revert hp hd <;> decide

theorem prime_ge7 {p : Nat} (hp : Nat.Prime p) (h2 : ¬ 2 ∣ p) (h3 : ¬ 3 ∣ p)
    (h5 : ¬ 5 ∣ p) : 7 ≤ p := by
  by_contra hcon
  push_neg at hcon
  have := hp.two_le
  interval_cases p <;> simp_all

theorem prime_gt5_ge7 {p : Nat} (hp : Nat.Prime p) (h5 : 5 < p) : 7 ≤ p := by
  by_contra hcon
  push_neg at hcon
  have : p = 6 := by omega
  rw [this] at hp
  exact absurd hp (by decide)

/-- Each sieve entry's prime is a cached prime `≥ 7`. -/
theorem entry_snd_mem {sv : List (Nat × Nat)} {pr : List Nat}
    (hperm : List.Perm (sv.map Prod.snd) (pr.filter fun q => decide (7 ≤ q)))
    {e : Nat × Nat} (he : e ∈ sv) : e.2 ∈ pr ∧ 7 ≤ e.2 := by
  have h1 : e.2 ∈ sv.map Prod.snd := List.mem_map.2 ⟨e, he, rfl⟩
  have h2 := hperm.mem_iff.1 h1
  obtain ⟨h3, h4⟩ := List.mem_filter.1 h2
  exact ⟨h3, by simpa using h4⟩

/-- Each cached prime `≥ 7` has an entry. -/
theorem exists_entry {sv : List (Nat × Nat)} {pr : List Nat}
    (hperm : List.Perm (sv.map Prod.snd) (pr.filter fun q => decide (7 ≤ q)))
    {q : Nat} (hq : q ∈ pr) (h7 : 7 ≤ q) : ∃ e ∈ sv, e.2 = q := by
  have h1 : q ∈ pr.filter fun q => decide (7 ≤ q) :=
    List.mem_filter.2 ⟨hq, by simpa⟩
  have h2 := hperm.symm.mem_iff.1 h1
  obtain ⟨e, he, hee⟩ := List.mem_map.1 h2
  exact ⟨e, he, hee⟩

/-- Entering the loop from a between-expands state. -/
theorem mid_of_inv {s : Sieve} (h : Sieve.Inv s) :
    SieveMid { s with wheel := (s.wheel.next).2 } ((s.wheel.next).1) := by
  obtain ⟨h1, h2, h3, h4, h5, h6, h7, h8, h9⟩ := h
  rw [wheel_next_fst]
  refine ⟨h1, h2, wheel_next_valid h3, h4, h5, ?_, wheel_next_value_gt h3,
    wheel_value_coprime (wheel_next_valid h3), wheel_gap h3, h7, h8, ?_⟩
  · intro q hq hqp
    have hq' : s.primes.getLastD 0 < q := hq
    by_contra hcon
    push_neg at hcon
    exact h6 q hq' hcon (prime_coprime30 hqp (by omega))
  · intro e he
    obtain ⟨he1, he2, he3⟩ := h9 e he
    refine ⟨he1, he2, ?_⟩
    rcases he3 with he3 | he3
    · exact Or.inl he3
    · exact Or.inr (by omega)

/-- Closing an expansion: the accepted candidate is prime and above every
pending composite. -/
theorem sieve_finish {s : Sieve} {nextp : Nat} (hmid : SieveMid s nextp)
    (hp : Nat.Prime nextp)
    (hallgt : ∀ e ∈ s.sieve, nextp < e.1) :
    Sieve.Inv { s with
      sieve := heapPush (nextp * nextp, nextp) s.sieve
      primes := s.primes ++ [nextp] } ∧
    IsNextPrime (s.primes.getLastD 0) nextp := by
  obtain ⟨h1, h2, h3, h4, h5, h6, h7, h8, h9, h10, h11, h12⟩ := hmid
  have hnext : IsNextPrime (s.primes.getLastD 0) nextp := ⟨hp, h4, h6⟩
  have h7n : 7 ≤ nextp := prime_gt5_ge7 hp (by omega)
  refine ⟨⟨isPrimeList_append h1 hnext, ?_, h3, ?_, h8, ?_, ?_, ?_, ?_⟩, hnext⟩
  · simp only [List.getLastD_concat]
    omega
  · simp only [List.getLastD_concat]
    exact h7
  · simp only [List.getLastD_concat]
    exact h9
  · exact heapPush_sorted h10
  · simp only
    refine List.Perm.trans (List.Perm.map Prod.snd (heapPush_perm _ _)) ?_
    rw [List.map_cons]
    rw [List.filter_append]
    have hfn : List.filter (fun q => decide (7 ≤ q)) [nextp] = [nextp] := by
      simp [h7n]
    rw [hfn]
    refine List.Perm.trans (List.Perm.cons nextp h11) ?_
    exact (List.perm_append_singleton nextp _).symm
  · simp only [List.getLastD_concat]
    intro e he
    have he2 := (heapPush_perm (nextp * nextp, nextp) s.sieve).mem_iff.1 he
    rcases List.mem_cons.1 he2 with rfl | he2
    · refine ⟨⟨0, by ring⟩, ?_, Or.inl rfl⟩
      have := hp.two_le
      nlinarith
    · obtain ⟨he3, he4, he5⟩ := h12 e he2
      refine ⟨he3, hallgt e he2, ?_⟩
      rcases he5 with he5 | he5
      · exact Or.inl he5
      · exact Or.inr (by omega)

end Primes

namespace Primes

set_option maxHeartbeats 1000000 in
/-- The main loop of `Sieve::expand` reaches exactly the next prime. -/
theorem sieveLoop_ok {P : Nat} :
    ∀ fuel (s : Sieve) (nextp : Nat), SieveMid s nextp →
      IsNextPrime (s.primes.getLastD 0) P → P ≤ 2 * s.primes.getLastD 0 →
      sieveMeasure P s nextp < fuel →
      ∃ s', sieveLoop fuel s nextp = some s' ∧ Sieve.Inv s' ∧
        s'.primes = s.primes ++ [P] := by
  intro fuel
  induction fuel with
  | zero => intro s nextp _ _ _ hf; omega
  | succ f ih =>
    intro s nextp hmid hP hP2 hf
    have hmidK := hmid
    obtain ⟨h1, h2, h3, h4, h5, h6, h7, h8, h9, h10, h11, h12⟩ := hmid
    have hnP : nextp ≤ P := h6 P hP.2.1 hP.1
    rcases hsv : s.sieve with _ | ⟨⟨c, q⟩, t⟩
    · -- heap empty: the state must be the seeded one, and the candidate is 7
      rw [hsv] at h11
      have hfilter : s.primes.filter (fun q => decide (7 ≤ q)) = [] :=
        (h11.symm).eq_nil
      have hlast5 : s.primes.getLastD 0 = 5 := by
        have hlp := isPrimeList_getLast_prime h1
        have hlt7 : s.primes.getLastD 0 < 7 := by
          by_contra hcon
          push_neg at hcon
          have hmem : s.primes.getLastD 0 ∈ s.primes.filter (fun q => decide (7 ≤ q)) :=
            List.mem_filter.2 ⟨isPrimeList_getLast_mem h1, decide_eq_true hcon⟩
          rw [hfilter] at hmem
          exact absurd hmem (List.not_mem_nil _)
        rcases (show s.primes.getLastD 0 = 5 ∨ s.primes.getLastD 0 = 6 by omega) with h | h
        · exact h
        · rw [h] at hlp
          exact absurd hlp (by decide)
      have hP7 : P = 7 := by
        refine isNextPrime_unique hP ?_
        rw [hlast5]
        refine ⟨by norm_num, by norm_num, ?_⟩
        intro r hr hrp
        by_contra hcon
        push_neg at hcon
        have : r = 6 := by omega
        rw [this] at hrp
        exact absurd hrp (by decide)
      have hn7 : nextp = 7 := by
        rw [hlast5] at h4
        rw [hP7] at hnP
        rcases (show nextp = 6 ∨ nextp = 7 by omega) with h | h
        · rw [h] at h5
          exact absurd h5 (by decide)
        · exact h
      have hallgt : ∀ e ∈ s.sieve, nextp < e.1 := by
        intro e he
        rw [hsv] at he
        exact absurd he (List.not_mem_nil e)
      obtain ⟨hinv, hnx⟩ := sieve_finish hmidK (by rw [hn7]; norm_num) hallgt
      refine ⟨_, ?_, hinv, by rw [hn7, hP7]⟩
      rw [sieveLoop, hsv]
      simp only [List.head?_nil]
      simp [Sieve.insert, hsv]
    · -- heap nonempty
      rw [hsv] at h10 h11 h12
      have hmemcq : ((c, q) : Nat × Nat) ∈ (c, q) :: t := List.mem_cons_self _ _
      obtain ⟨hqmem, hq7⟩ := entry_snd_mem h11 hmemcq
      obtain ⟨⟨t0, hct0⟩, hclast, hcE4⟩ := h12 (c, q) hmemcq
      have hq7' : 7 ≤ q := hq7
      have hqmem' : q ∈ s.primes := hqmem
      have hct0' : c = q * (q + 2 * t0) := hct0
      have hclast' : s.primes.getLastD 0 < c := hclast
      have hcE4' : c = q * q ∨ c < nextp + 2 * q := hcE4
      have h2q : 0 < 2 * q := by omega
      rcases Nat.lt_trichotomy c nextp with hlt | heqc | hgt
      · -- Less: stale entry, advance it
        have hmid1 : SieveMid { s with sieve := heapPush (c + 2 * q, q) t } nextp := by
          refine ⟨h1, h2, h3, h4, h5, h6, h7, h8, h9, ?_, ?_, ?_⟩
          · exact heapPush_sorted (List.sorted_cons.1 h10).2
          · refine List.Perm.trans (List.Perm.map Prod.snd (heapPush_perm _ _)) ?_
            rw [List.map_cons]
            rw [List.map_cons] at h11
            exact h11
          · intro e he
            have he2 := (heapPush_perm (c + 2 * q, q) t).mem_iff.1 he
            rcases List.mem_cons.1 he2 with heq2 | he2
            · rw [heq2]
              refine ⟨⟨t0 + 1, ?_⟩, ?_, Or.inr ?_⟩
              · show c + 2 * q = q * (q + 2 * (t0 + 1))
                rw [hct0']
                ring
              · show s.primes.getLastD 0 < c + 2 * q
                omega
              · show c + 2 * q < nextp + 2 * q
                omega
            · exact h12 e (List.mem_cons_of_mem _ he2)
        have hsum : (List.map (fun e => (P + 2 * e.2 - e.1) / (2 * e.2))
            (heapPush (c + 2 * q, q) t)).sum =
            ((P + 2 * q - (c + 2 * q)) / (2 * q)) +
              (List.map (fun e => (P + 2 * e.2 - e.1) / (2 * e.2)) t).sum := by
          rw [((heapPush_perm (c + 2 * q, q) t).map
            (fun e => (P + 2 * e.2 - e.1) / (2 * e.2))).sum_eq]
          rw [List.map_cons, List.sum_cons]
        have hterm : (P + 2 * q - c) / (2 * q) =
            (P + 2 * q - (c + 2 * q)) / (2 * q) + 1 := by
          have ht1 : P + 2 * q - c = (P - c) + 2 * q := by omega
          have ht3 : P + 2 * q - (c + 2 * q) = P - c := by omega
          rw [ht1, ht3]
          exact Nat.add_div_right _ h2q
        have hmeas1 : sieveMeasure P { s with sieve := heapPush (c + 2 * q, q) t } nextp < f := by
          have hf2 : (List.map (fun e => (P + 2 * e.2 - e.1) / (2 * e.2)) ((c, q) :: t)).sum
              + 2 * (P - nextp) < f + 1 := by
            rw [sieveMeasure, hsv] at hf
            exact hf
          rw [List.map_cons, List.sum_cons] at hf2
          have hf3 : (P + 2 * q - c) / (2 * q) +
              (List.map (fun e => (P + 2 * e.2 - e.1) / (2 * e.2)) t).sum +
              2 * (P - nextp) < f + 1 := hf2
          show (List.map (fun e => (P + 2 * e.2 - e.1) / (2 * e.2))
              (heapPush (c + 2 * q, q) t)).sum + 2 * (P - nextp) < f
          rw [hsum]
          omega
        obtain ⟨s', hs'1, hs'2, hs'3⟩ := ih _ nextp hmid1 hP hP2 hmeas1
        refine ⟨s', ?_, hs'2, hs'3⟩
        rw [sieveLoop, hsv]
        simp only [List.head?_cons, List.tail_cons]
        rw [if_pos hlt]
        exact hs'1
      · -- Equal: the candidate is composite, advance both
        have hncomp : ¬ Nat.Prime nextp := by
          intro hpn
          have hdq : q ∣ nextp := by
            rw [← heqc, hct0']
            exact Dvd.intro _ rfl
          rcases (Nat.Prime.eq_one_or_self_of_dvd hpn q hdq) with hq1 | hq1
          · omega
          · rw [← heqc, hct0'] at hq1
            nlinarith
        have hmid2 : SieveMid { s with
            sieve := heapPush (c + 2 * q, q) t
            wheel := (s.wheel.next).2 } ((s.wheel.next).1) := by
          rw [wheel_next_fst]
          refine ⟨h1, h2, wheel_next_valid h3, lt_trans h4 h7, h8, ?_,
            wheel_next_value_gt h3, wheel_value_coprime (wheel_next_valid h3),
            wheel_gap h3, ?_, ?_, ?_⟩
          · intro r hr hrp
            have hner : nextp ≠ r := fun he => hncomp (he ▸ hrp)
            have hnr : nextp < r := lt_of_le_of_ne (h6 r hr hrp) hner
            by_contra hcon
            push_neg at hcon
            exact h9 r hnr hcon (prime_coprime30 hrp (by omega))
          · exact heapPush_sorted (List.sorted_cons.1 h10).2
          · refine List.Perm.trans (List.Perm.map Prod.snd (heapPush_perm _ _)) ?_
            rw [List.map_cons]
            rw [List.map_cons] at h11
            exact h11
          · intro e he
            have he2 := (heapPush_perm (c + 2 * q, q) t).mem_iff.1 he
            rcases List.mem_cons.1 he2 with heq2 | he2
            · rw [heq2]
              refine ⟨⟨t0 + 1, ?_⟩, ?_, Or.inr ?_⟩
              · show c + 2 * q = q * (q + 2 * (t0 + 1))
                rw [hct0']
                ring
              · show s.primes.getLastD 0 < c + 2 * q
                omega
              · show c + 2 * q < s.wheel.value + 2 * q
                omega
            · obtain ⟨e1, e2, e3⟩ := h12 e (List.mem_cons_of_mem _ he2)
              refine ⟨e1, e2, ?_⟩
              rcases e3 with e3 | e3
              · exact Or.inl e3
              · refine Or.inr ?_
                show e.1 < s.wheel.value + 2 * e.2
                omega
        have hsum : (List.map (fun e => (P + 2 * e.2 - e.1) / (2 * e.2))
            (heapPush (c + 2 * q, q) t)).sum =
            ((P + 2 * q - (c + 2 * q)) / (2 * q)) +
              (List.map (fun e => (P + 2 * e.2 - e.1) / (2 * e.2)) t).sum := by
          rw [((heapPush_perm (c + 2 * q, q) t).map
            (fun e => (P + 2 * e.2 - e.1) / (2 * e.2))).sum_eq]
          rw [List.map_cons, List.sum_cons]
        have hterm : (P + 2 * q - c) / (2 * q) =
            (P + 2 * q - (c + 2 * q)) / (2 * q) + 1 := by
          have ht1 : P + 2 * q - c = (P - c) + 2 * q := by omega
          have ht3 : P + 2 * q - (c + 2 * q) = P - c := by omega
          rw [ht1, ht3]
          exact Nat.add_div_right _ h2q
        have hvle : (s.wheel.next).1 ≤ P := by
          rw [wheel_next_fst]
          have hner : nextp ≠ P := fun he => hncomp (he ▸ hP.1)
          have hnr : nextp < P := lt_of_le_of_ne hnP hner
          by_contra hcon
          push_neg at hcon
          exact h9 P hnr hcon (prime_coprime30 hP.1 (by omega))
        have hvgt : nextp < (s.wheel.next).1 := by
          rw [wheel_next_fst]
          exact h7
        have hmeas2 : sieveMeasure P { s with
            sieve := heapPush (c + 2 * q, q) t
            wheel := (s.wheel.next).2 } ((s.wheel.next).1) < f := by
          have hf2 : (List.map (fun e => (P + 2 * e.2 - e.1) / (2 * e.2)) ((c, q) :: t)).sum
              + 2 * (P - nextp) < f + 1 := by
            rw [sieveMeasure, hsv] at hf
            exact hf
          rw [List.map_cons, List.sum_cons] at hf2
          have hf3 : (P + 2 * q - c) / (2 * q) +
              (List.map (fun e => (P + 2 * e.2 - e.1) / (2 * e.2)) t).sum +
              2 * (P - nextp) < f + 1 := hf2
          show (List.map (fun e => (P + 2 * e.2 - e.1) / (2 * e.2))
              (heapPush (c + 2 * q, q) t)).sum + 2 * (P - (s.wheel.next).1) < f
          rw [hsum]
          have hv1 : nextp ≤ (s.wheel.next).1 := le_of_lt hvgt
          omega
        obtain ⟨s', hs'1, hs'2, hs'3⟩ := ih _ _ hmid2 hP hP2 hmeas2
        refine ⟨s', ?_, hs'2, hs'3⟩
        rw [sieveLoop, hsv]
        simp only [List.head?_cons, List.tail_cons]
        rw [if_neg (by omega), if_pos heqc]
        exact hs'1
      · -- Greater: the candidate survived every pending composite, so prime
        have hallgt : ∀ e ∈ s.sieve, nextp < e.1 := by
          intro e he
          rw [hsv] at he
          have := heap_head_min h10 (by rw [List.head?_cons]) e he
          omega
        have hpn : Nat.Prime nextp := by
          by_contra hcomp
          obtain ⟨hd2, hd3, hd5⟩ := coprime30_not_dvd h5
          have hne1 : nextp ≠ 1 := by omega
          have hmfp : Nat.Prime nextp.minFac := Nat.minFac_prime hne1
          have hmfd : nextp.minFac ∣ nextp := Nat.minFac_dvd nextp
          have hmf7 : 7 ≤ nextp.minFac := by
            refine prime_ge7 hmfp ?_ ?_ ?_
            · exact fun hdd => hd2 (dvd_trans hdd hmfd)
            · exact fun hdd => hd3 (dvd_trans hdd hmfd)
            · exact fun hdd => hd5 (dvd_trans hdd hmfd)
          have hsq : nextp.minFac * nextp.minFac ≤ nextp := by
            have := Nat.minFac_sq_le_self (by omega : 0 < nextp) hcomp
            nlinarith [this]
          have hmflast : nextp.minFac ≤ s.primes.getLastD 0 := by
            by_contra hcon
            push_neg at hcon
            nlinarith
          have hmem : nextp.minFac ∈ s.primes :=
            isPrimeList_complete h1 _ hmfp hmflast
          obtain ⟨e, he, hee⟩ := exists_entry h11 hmem (by omega)
          have hegt : nextp < e.1 := by
            have := heap_head_min h10 (by rw [List.head?_cons]) e he
            omega
          obtain ⟨⟨te, hete⟩, helast, heE4⟩ := h12 e he
          rw [hee] at hete heE4
          -- nextp itself lies on minFac's progression
          have hdd : nextp / nextp.minFac * nextp.minFac = nextp :=
            Nat.div_mul_cancel hmfd
          have hdge : nextp.minFac ≤ nextp / nextp.minFac := by
            by_contra hcon
            push_neg at hcon
            have hlt : nextp / nextp.minFac * nextp.minFac <
                nextp.minFac * nextp.minFac :=
              mul_lt_mul_of_pos_right hcon (by omega)
            omega
          have hoddn : nextp % 2 = 1 := by omega
          have hoddf : nextp.minFac % 2 = 1 := by
            rcases Nat.even_or_odd nextp.minFac with hev | hod
            · obtain ⟨k, hk⟩ := hev
              exact absurd (dvd_trans ⟨k, by omega⟩ hmfd) hd2
            · obtain ⟨k, hk⟩ := hod
              omega
          have hoddd : (nextp / nextp.minFac) % 2 = 1 := by
            rcases Nat.even_or_odd (nextp / nextp.minFac) with hev | hod
            · obtain ⟨k, hk⟩ := hev
              have : (2 : Nat) ∣ nextp := by
                refine ⟨k * nextp.minFac, ?_⟩
                calc nextp = nextp / nextp.minFac * nextp.minFac := hdd.symm
                  _ = (k + k) * nextp.minFac := by rw [hk]
                  _ = 2 * (k * nextp.minFac) := by ring
              exact absurd this hd2
            · obtain ⟨k, hk⟩ := hod
              omega
          obtain ⟨t1, ht1⟩ : ∃ t1, nextp / nextp.minFac = nextp.minFac + 2 * t1 :=
            ⟨(nextp / nextp.minFac - nextp.minFac) / 2, by omega⟩
          have hnprog : nextp = nextp.minFac * (nextp.minFac + 2 * t1) := by
            calc nextp = nextp / nextp.minFac * nextp.minFac := hdd.symm
              _ = (nextp.minFac + 2 * t1) * nextp.minFac := by rw [ht1]
              _ = nextp.minFac * (nextp.minFac + 2 * t1) := by ring
          rcases heE4 with heE4 | heE4
          · omega
          · have ht01 : t1 < te := by nlinarith
            have hge : nextp + 2 * nextp.minFac ≤ e.1 := by
              rw [hete, hnprog]
              have h5' : nextp.minFac + 2 * t1 + 2 ≤ nextp.minFac + 2 * te := by omega
              nlinarith
            omega
        have hPeq : nextp = P := le_antisymm hnP (hP.2.2 nextp h4 hpn)
        obtain ⟨hinv, hnx⟩ := sieve_finish hmidK hpn hallgt
        refine ⟨_, ?_, hinv, by rw [hPeq]⟩
        rw [sieveLoop, hsv]
        simp only [List.head?_cons, List.tail_cons]
        rw [if_neg (by omega), if_neg (by omega), ← hsv]
        rfl

end Primes

namespace Primes

/-! The `Sieve` engine satisfies the abstract engine contract. -/

theorem sum_le_length_mul {l : List Nat} {n : Nat} (h : ∀ x ∈ l, x ≤ n) :
    l.sum ≤ l.length * n := by
  induction l with
  | nil => simp
  | cons a t ih =>
    simp only [List.sum_cons, List.length_cons]
    have ha := h a (List.mem_cons_self a t)
    have ht := ih (fun x hx => h x (List.mem_cons_of_mem a hx))
    calc a + t.sum ≤ n + t.length * n := Nat.add_le_add ha ht
      _ = (t.length + 1) * n := by ring

/-- `Sieve::expand` succeeds from every invariant state and appends exactly
the next prime. -/
theorem sieve_expand_ok {s : Sieve} (h : Sieve.Inv s) :
    ∃ s' p, Sieve.expand s = some s' ∧ Sieve.Inv s' ∧
      IsNextPrime (s.primes.getLastD 0) p ∧ s'.primes = s.primes ++ [p] := by
  obtain ⟨h1, h2, h3, h4, h5, h6, h7, h8, h9⟩ := h
  obtain ⟨P, hP, hP2⟩ := isNextPrime_exists (m := s.primes.getLastD 0) (by omega)
  have hmid := mid_of_inv ⟨h1, h2, h3, h4, h5, h6, h7, h8, h9⟩
  have hterm : ∀ x ∈ (List.map (fun e => (P + 2 * e.2 - e.1) / (2 * e.2)) s.sieve),
      x ≤ 2 * s.primes.getLastD 0 := by
    intro x hx
    obtain ⟨e, he, hex⟩ := List.mem_map.1 hx
    obtain ⟨hq, h7q⟩ := entry_snd_mem h8 he
    obtain ⟨⟨t0, ht0⟩, hlt, hE3⟩ := h9 e he
    have hcq : e.2 * e.2 ≤ e.1 := by
      rw [ht0]
      exact Nat.mul_le_mul_left _ (by omega)
    have h2q2 : 2 * e.2 ≤ e.2 * e.2 := by nlinarith
    have hnum : P + 2 * e.2 - e.1 ≤ P := by omega
    calc x = (P + 2 * e.2 - e.1) / (2 * e.2) := hex.symm
      _ ≤ P + 2 * e.2 - e.1 := Nat.div_le_self _ _
      _ ≤ P := hnum
      _ ≤ 2 * s.primes.getLastD 0 := hP2
  have hsum : (List.map (fun e => (P + 2 * e.2 - e.1) / (2 * e.2)) s.sieve).sum
      ≤ s.sieve.length * (2 * s.primes.getLastD 0) := by
    have hb := sum_le_length_mul hterm
    rw [List.length_map] at hb
    exact hb
  have hlen : s.sieve.length ≤ s.primes.length := by
    have h1l : (s.sieve.map Prod.snd).length =
        (s.primes.filter fun q => decide (7 ≤ q)).length := h8.length_eq
    rw [List.length_map] at h1l
    rw [h1l]
    exact List.length_filter_le _ _
  have hsum2 : (List.map (fun e => (P + 2 * e.2 - e.1) / (2 * e.2)) s.sieve).sum
      ≤ s.primes.length * (2 * s.primes.getLastD 0) :=
    le_trans hsum (Nat.mul_le_mul_right _ hlen)
  have hprod : (s.primes.length + 2) * (2 * s.primes.getLastD 0 + 30) =
      s.primes.length * (2 * s.primes.getLastD 0) +
        (30 * s.primes.length + 4 * s.primes.getLastD 0 + 60) := by ring
  have hmeas : sieveMeasure P { s with wheel := (s.wheel.next).2 } ((s.wheel.next).1)
      < sieveFuel s := by
    show (List.map (fun e => (P + 2 * e.2 - e.1) / (2 * e.2)) s.sieve).sum +
      2 * (P - (s.wheel.next).1) <
      (s.primes.length + 2) * (2 * s.primes.getLastD 0 + 30)
    omega
  obtain ⟨s', hs'1, hs'2, hs'3⟩ := sieveLoop_ok _ _ _ hmid hP hP2 hmeas
  exact ⟨s', P, hs'1, hs'2, hP, hs'3⟩

/-- The seeded `Sieve::new` state satisfies the invariant. -/
theorem sieve_new_inv : Sieve.Inv Sieve.new := by
  refine ⟨by unfold IsPrimeList; decide, by decide,
    by unfold Wheel30.Valid; decide, by decide, by decide, ?_,
    List.sorted_nil, ?_, ?_⟩
  · intro m hm1 hm2
    have hm1' : (5 : Nat) < m := hm1
    have hm2' : m < 7 := hm2
    have hm : m = 6 := by omega
    subst hm
    decide
  · show List.Perm (List.map Prod.snd []) (List.filter (fun q => decide (7 ≤ q)) [2, 3, 5])
    decide
  · intro e he
    exact absurd he (List.not_mem_nil e)

/-- The `Sieve` engine satisfies the abstract engine contract. -/
theorem sieve_engineOK : EngineOK Sieve.expand Sieve.list Sieve.Inv := by
  refine ⟨fun s hs => hs.1, fun s hs => ?_⟩
  obtain ⟨s', p, h1, h2, h3, h4⟩ := sieve_expand_ok hs
  exact ⟨s', p, h1, h2, h3, h4⟩

end Primes

namespace Primes

/-! Iterated expansion, and the divergence of `prime_factors` at 0. -/

theorem expandN_ok {σ : Type} {expand : σ → Option σ} {lst : σ → List Nat}
    {Inv : σ → Prop} (E : EngineOK expand lst Inv) :
    ∀ k s, Inv s → ∃ s', expandN expand k s = some s' ∧ Inv s' := by
  intro k
  induction k with
  | zero => intro s hs; exact ⟨s, rfl, hs⟩
  | succ j ih =>
    intro s hs
    obtain ⟨s', p, he, hI', _, _⟩ := E.expandOk s hs
    obtain ⟨s'', h1, h2⟩ := ih s' hI'
    refine ⟨s'', ?_, h2⟩
    rw [expandN, he, Option.some_bind]
    exact h1

theorem pfInner_zero (p : Nat) : ∀ fuel acc, PrimeSet.pfInner p fuel 0 acc = none := by
  intro fuel
  induction fuel with
  | zero => intro acc; rfl
  | succ f ih =>
    intro acc
    rw [PrimeSet.pfInner, if_pos (Nat.zero_mod p)]
    show (if 0 / p = 1 then some (0 / p, acc ++ [p], true)
      else PrimeSet.pfInner p f (0 / p) (acc ++ [p])) = none
    rw [Nat.zero_div, if_neg (by omega : ¬ (0 : Nat) = 1)]
    exact ih _

theorem pfLoop_zero {σ : Type} (expand : σ → Option σ) (lst : σ → List Nat) :
    ∀ fuel (s : σ) i acc, PrimeSet.pfLoop expand lst fuel s i 0 acc = none := by
  intro fuel s i acc
  cases fuel with
  | zero => rfl
  | succ f =>
    cases hit : PrimeSet.iterNext expand lst (i + 2) s i with
    | none => rw [PrimeSet.pfLoop, hit]
    | some v =>
      obtain ⟨p, s'⟩ := v
      rw [PrimeSet.pfLoop, hit]
      show (match PrimeSet.pfInner p (0 + 1) 0 acc with
        | none => none
        | some (curn', acc', done) =>
          if done then some (acc', s')
          else if p * p > curn' then some (acc' ++ [curn'], s')
          else PrimeSet.pfLoop expand lst f s' (i + 1) curn' acc') = none
      rw [pfInner_zero]

/-- The engine `prime_factors` output is exactly `Nat.primeFactorsList`. -/
theorem prime_factors_eq_pfl {σ : Type} {expand : σ → Option σ} {lst : σ → List Nat}
    {Inv : σ → Prop} (E : EngineOK expand lst Inv) {s : σ} (hs : Inv s)
    {n : Nat} (hn : 2 ≤ n) :
    ∃ r s', PrimeSet.prime_factors expand lst s n = some (r, s') ∧
      r = n.primeFactorsList := by
  obtain ⟨r, s', h1, _, h3, h4, h5⟩ := prime_factors_ok E hs hn
  refine ⟨r, s', h1, ?_⟩
  have hperm : r.Perm n.primeFactorsList := Nat.primeFactorsList_unique h3 h5
  exact List.eq_of_perm_of_sorted hperm h4 (Nat.primeFactorsList_sorted n)

theorem bool_eq_decide {b : Bool} {P : Prop} [Decidable P] (h : b = true ↔ P) :
    b = decide P := by
  cases b with
  | true => exact (decide_eq_true (h.1 rfl)).symm
  | false =>
    have hnp : ¬ P := fun hp => Bool.false_ne_true (h.2 hp)
    exact (decide_eq_false hnp).symm

end Primes

namespace Primes

/-! Concrete evaluation of the `TrialDivision` engine, in chained chunks. -/

theorem expandN_chain {σ : Type} (expand : σ → Option σ) :
    ∀ (a : Nat) {b : Nat} {s t u : σ}, expandN expand a s = some t →
      expandN expand b t = some u → expandN expand (a + b) s = some u := by
  intro a
  induction a with
  | zero =>
    intro b s t u h1 h2
    have hst : s = t := Option.some.inj h1
    rw [Nat.zero_add, hst]
    exact h2
  | succ j ih =>
    intro b s t u h1 h2
    rw [expandN] at h1
    cases he : expand s with
    | none => rw [he] at h1; exact absurd h1 (by simp)
    | some s1 =>
      rw [he, Option.some_bind] at h1
      have : j + 1 + b = (j + b) + 1 := by omega
      rw [this, expandN, he, Option.some_bind]
      exact ih h1 h2

theorem td_of_map_list {r : Option TrialDivision} {L : List Nat}
    (h : r.map TrialDivision.list = some L) : r = some ⟨L⟩ := by
  cases r with
  | none => exact absurd h (by simp)
  | some td =>
    have h2 : td.lst = L := Option.some.inj h
    rw [← h2]

set_option maxRecDepth 4000 in
theorem tdChain : expandN TrialDivision.expand 167 TrialDivision.new =
    some ⟨L1009⟩ := by
  have c1 : (expandN TrialDivision.expand 20 TrialDivision.new).map
      TrialDivision.list = some (L1009.take 22) := by decide
  have c2 : (expandN TrialDivision.expand 20 (⟨L1009.take 22⟩ : TrialDivision)).map
      TrialDivision.list = some (L1009.take 42) := by decide
  have c3 : (expandN TrialDivision.expand 20 (⟨L1009.take 42⟩ : TrialDivision)).map
      TrialDivision.list = some (L1009.take 62) := by decide
  have c4 : (expandN TrialDivision.expand 20 (⟨L1009.take 62⟩ : TrialDivision)).map
      TrialDivision.list = some (L1009.take 82) := by decide
  have c5 : (expandN TrialDivision.expand 20 (⟨L1009.take 82⟩ : TrialDivision)).map
      TrialDivision.list = some (L1009.take 102) := by decide
  have c6 : (expandN TrialDivision.expand 20 (⟨L1009.take 102⟩ : TrialDivision)).map
      TrialDivision.list = some (L1009.take 122) := by decide
  have c7 : (expandN TrialDivision.expand 20 (⟨L1009.take 122⟩ : TrialDivision)).map
      TrialDivision.list = some (L1009.take 142) := by decide
  have c8 : (expandN TrialDivision.expand 20 (⟨L1009.take 142⟩ : TrialDivision)).map
      TrialDivision.list = some (L1009.take 162) := by decide
  have c9 : (expandN TrialDivision.expand 7 (⟨L1009.take 162⟩ : TrialDivision)).map
      TrialDivision.list = some L1009 := by decide
  have d1 := td_of_map_list c1
  have d2 := td_of_map_list c2
  have d3 := td_of_map_list c3
  have d4 := td_of_map_list c4
  have d5 := td_of_map_list c5
  have d6 := td_of_map_list c6
  have d7 := td_of_map_list c7
  have d8 := td_of_map_list c8
  have d9 := td_of_map_list c9
  have g8 := expandN_chain TrialDivision.expand 20 d8 d9
  have g7 := expandN_chain TrialDivision.expand 20 d7 g8
  have g6 := expandN_chain TrialDivision.expand 20 d6 g7
  have g5 := expandN_chain TrialDivision.expand 20 d5 g6
  have g4 := expandN_chain TrialDivision.expand 20 d4 g5
  have g3 := expandN_chain TrialDivision.expand 20 d3 g4
  have g2 := expandN_chain TrialDivision.expand 20 d2 g3
  have g1 := expandN_chain TrialDivision.expand 20 d1 g2
  exact g1

end Primes

namespace Primes

/-! The claims. -/

/-- C1: after any finite sequence of `expand()` calls on an engine built by
`new()` (either `TrialDivision` or `Sieve`), `list()` is strictly increasing,
duplicate-free, contains only primes, begins with 2, and contains every prime
smaller than its last element. -/
theorem claim_C1 : ∀ k,
    (∃ td, expandN TrialDivision.expand k TrialDivision.new = some td ∧
      (TrialDivision.list td).Sorted (· < ·) ∧ (TrialDivision.list td).Nodup ∧
      (∀ x ∈ TrialDivision.list td, Nat.Prime x) ∧
      (TrialDivision.list td).getD 0 0 = 2 ∧
      (∀ p, Nat.Prime p → p < (TrialDivision.list td).getLastD 0 →
        p ∈ TrialDivision.list td)) ∧
    (∃ s, expandN Sieve.expand k Sieve.new = some s ∧
      (Sieve.list s).Sorted (· < ·) ∧ (Sieve.list s).Nodup ∧
      (∀ x ∈ Sieve.list s, Nat.Prime x) ∧
      (Sieve.list s).getD 0 0 = 2 ∧
      (∀ p, Nat.Prime p → p < (Sieve.list s).getLastD 0 → p ∈ Sieve.list s)) := by
  intro k
  constructor
  · obtain ⟨td, h1, h2⟩ :=
      expandN_ok trialDivision_engineOK k TrialDivision.new trialDivision_new_inv
    have hl := trialDivision_engineOK.listPrime td h2
    exact ⟨td, h1, hl.2.1, hl.2.1.nodup, hl.2.2.1, isPrimeList_head hl,
      fun p hp hlt => isPrimeList_complete hl p hp (by omega)⟩
  · obtain ⟨s, h1, h2⟩ := expandN_ok sieve_engineOK k Sieve.new sieve_new_inv
    have hl := sieve_engineOK.listPrime s h2
    exact ⟨s, h1, hl.2.1, hl.2.1.nodup, hl.2.2.1, isPrimeList_head hl,
      fun p hp hlt => isPrimeList_complete hl p hp (by omega)⟩

/-- C2: the `TrialDivision` and `Sieve` engines built by `new()` yield the
same k-th iterator element and the same `find(n)` pair, for every k and n;
the first 9 iterator elements are 2, 3, 5, 7, 11, 13, 17, 19, 23. -/
theorem claim_C2 :
    (∀ k, ∃ v td' s', PrimeSet.iterNext TrialDivision.expand TrialDivision.list
        (k + 2) TrialDivision.new k = some (v, td') ∧
      PrimeSet.iterNext Sieve.expand Sieve.list (k + 2) Sieve.new k = some (v, s')) ∧
    (∀ n, ∃ i p td' s', PrimeSet.find TrialDivision.expand TrialDivision.list
        TrialDivision.new n = some ((i, p), td') ∧
      PrimeSet.find Sieve.expand Sieve.list Sieve.new n = some ((i, p), s')) ∧
    (List.range 9).map (fun k =>
      ((PrimeSet.iterNext TrialDivision.expand TrialDivision.list (k + 2)
        TrialDivision.new k).map Prod.fst).getD 0) =
      [2, 3, 5, 7, 11, 13, 17, 19, 23] := by
  refine ⟨?_, ?_, by decide⟩
  · intro k
    obtain ⟨v1, td', ht1, hI1, _, hlen1, hget1⟩ :=
      iterNext_ok trialDivision_engineOK (k + 2) TrialDivision.new k
        trialDivision_new_inv (show k + 1 ≤ 2 + (k + 2) by omega)
    obtain ⟨v2, s2', ht2, hI2, _, hlen2, hget2⟩ :=
      iterNext_ok sieve_engineOK (k + 2) Sieve.new k
        sieve_new_inv (show k + 1 ≤ 3 + (k + 2) by omega)
    have hl1 := trialDivision_engineOK.listPrime _ hI1
    have hl2 := sieve_engineOK.listPrime _ hI2
    have hv : v1 = v2 := by
      rw [← hget1, ← hget2]
      rcases Nat.le_total (TrialDivision.list td').length (Sieve.list s2').length
        with hc | hc
      · exact isPrimeList_getD_stable hl1 hl2 hlen1 hc
      · exact (isPrimeList_getD_stable hl2 hl1 hlen2 hc).symm
    refine ⟨v1, td', s2', ht1, ?_⟩
    rw [hv]
    exact ht2
  · intro n
    obtain ⟨i1, p1, td', h1, hI1, hp1, hn1, hmin1, hc1, _, _, _⟩ :=
      find_ok trialDivision_engineOK trialDivision_new_inv n
    obtain ⟨i2, p2, s2', h2, hI2, hp2, hn2, hmin2, hc2, _, _, _⟩ :=
      find_ok sieve_engineOK sieve_new_inv n
    have hpe : p1 = p2 := le_antisymm (hmin1 p2 hp2 hn2) (hmin2 p1 hp1 hn1)
    have hie : i1 = i2 := by rw [← hc1, ← hc2, hpe]
    refine ⟨i1, p1, td', s2', h1, ?_⟩
    rw [hie, hpe]
    exact h2

/-- C3: on a cache satisfying the sorted-primes invariant, `find_vec(n)`
returns the least cached prime `≥ n` with its index when `n` is at most the
last cached prime, returns `none` past it (and never indexes out of bounds),
and returns `(0, 2)` for `n ≤ 2`. -/
theorem claim_C3 {l : List Nat} (h : IsPrimeList l) (n : Nat) :
    (n ≤ l.getLastD 0 →
      ∃ i, PrimeSet.find_vec l n = some (i, l.getD i 0) ∧ i < l.length ∧
        n ≤ l.getD i 0 ∧ ∀ x ∈ l, n ≤ x → l.getD i 0 ≤ x) ∧
    (l.getLastD 0 < n → PrimeSet.find_vec l n = none) ∧
    (n ≤ 2 → PrimeSet.find_vec l n = some (0, 2)) := by
  refine ⟨?_, fun hgt => find_vec_none hgt, ?_⟩
  · intro hle
    obtain ⟨i, hi, hfv, hni, hmin⟩ := find_vec_some h hle
    exact ⟨i, hfv, hi, hni, find_vec_least h hi hmin⟩
  · intro h2
    have h2last : 2 ≤ l.getLastD 0 := isPrimeList_mem_le h (isPrimeList_two_mem h)
    obtain ⟨i, hi, hfv, hni, hmin⟩ := find_vec_some (n := n) h (by omega)
    have hi0 : i = 0 := by
      by_contra hne
      have := hmin 0 (by omega)
      have hhead := isPrimeList_head h
      omega
    subst hi0
    rw [hfv, isPrimeList_head h]

/-- C3 witness at the cache `[2, 3, 5]` and input 4. -/
theorem claim_C3_witness :
    ∃ i, PrimeSet.find_vec [2, 3, 5] 4 = some (i, ([2, 3, 5] : List Nat).getD i 0) ∧
      i < ([2, 3, 5] : List Nat).length ∧ 4 ≤ ([2, 3, 5] : List Nat).getD i 0 ∧
      ∀ x ∈ ([2, 3, 5] : List Nat), 4 ≤ x → ([2, 3, 5] : List Nat).getD i 0 ≤ x :=
  (claim_C3 (l := [2, 3, 5]) (by unfold IsPrimeList; decide) 4).1 (by decide)

set_option maxRecDepth 4000 in
/-- C4: `find(n)` on a fresh engine terminates with the least prime `≥ n`
and its 0-based index in the prime sequence; concretely
`find(1000) = find(1009) = (168, 1009)`. -/
theorem claim_C4 :
    (∀ n, ∃ i p td', PrimeSet.find TrialDivision.expand TrialDivision.list
        TrialDivision.new n = some ((i, p), td') ∧
      Nat.Prime p ∧ n ≤ p ∧ (∀ q, Nat.Prime q → n ≤ q → p ≤ q) ∧
      Nat.count Nat.Prime p = i) ∧
    (∀ n, ∃ i p s', PrimeSet.find Sieve.expand Sieve.list Sieve.new n =
        some ((i, p), s') ∧
      Nat.Prime p ∧ n ≤ p ∧ (∀ q, Nat.Prime q → n ≤ q → p ≤ q) ∧
      Nat.count Nat.Prime p = i) ∧
    (PrimeSet.find TrialDivision.expand TrialDivision.list TrialDivision.new
      1000).map Prod.fst = some (168, 1009) ∧
    (PrimeSet.find TrialDivision.expand TrialDivision.list TrialDivision.new
      1009).map Prod.fst = some (168, 1009) := by
  obtain ⟨tdF, hE, hInv⟩ :=
    expandN_ok trialDivision_engineOK 167 TrialDivision.new trialDivision_new_inv
  have hFeq : tdF = (⟨L1009⟩ : TrialDivision) :=
    Option.some.inj (hE.symm.trans tdChain)
  subst hFeq
  have hl : IsPrimeList L1009 := hInv.1
  have hPL : Nat.Prime 1009 := hl.2.2.1 1009 (by decide)
  have hgd : L1009.getD 168 0 = 1009 := by decide
  have hcnt : Nat.count Nat.Prime 1009 = 168 := by
    have h := isPrimeList_count hl (show 168 < L1009.length by decide)
    rw [hgd] at h
    exact h
  have hlast : L1009.getLastD 0 = 1009 := by decide
  have honly : ∀ x ∈ L1009, 1000 ≤ x → x = 1009 := by decide
  refine ⟨?_, ?_, ?_, ?_⟩
  · intro n
    obtain ⟨i, p, s', h1, _, hp, hn, hmin, hc, _, _, _⟩ :=
      find_ok trialDivision_engineOK trialDivision_new_inv n
    exact ⟨i, p, s', h1, hp, hn, hmin, hc⟩
  · intro n
    obtain ⟨i, p, s', h1, _, hp, hn, hmin, hc, _, _, _⟩ :=
      find_ok sieve_engineOK sieve_new_inv n
    exact ⟨i, p, s', h1, hp, hn, hmin, hc⟩
  · obtain ⟨i, p, s', h1, _, hp, hn, hmin, hc, _, _, _⟩ :=
      find_ok trialDivision_engineOK trialDivision_new_inv 1000
    have hple : p ≤ 1009 := hmin 1009 hPL (by omega)
    have hpmem : p ∈ L1009 := isPrimeList_complete hl p hp (by rw [hlast]; exact hple)
    have hpe : p = 1009 := honly p hpmem hn
    have hc9 : Nat.count Nat.Prime 1009 = i := by rw [← hpe]; exact hc
    have hie : i = 168 := by omega
    rw [h1, hpe, hie]
    rfl
  · obtain ⟨i, p, s', h1, _, hp, hn, hmin, hc, _, _, _⟩ :=
      find_ok trialDivision_engineOK trialDivision_new_inv 1009
    have hple : p ≤ 1009 := hmin 1009 hPL (le_refl _)
    have hpe : p = 1009 := by omega
    have hc9 : Nat.count Nat.Prime 1009 = i := by rw [← hpe]; exact hc
    have hie : i = 168 := by omega
    rw [h1, hpe, hie]
    rfl

/-- C5: for `n ≥ 2`, `prime_factors(n)` on a fresh engine returns a
non-decreasing list of primes whose product is `n`. -/
theorem claim_C5 {n : Nat} (hn : 2 ≤ n) :
    (∃ r td', PrimeSet.prime_factors TrialDivision.expand TrialDivision.list
        TrialDivision.new n = some (r, td') ∧
      r.prod = n ∧ r.Sorted (· ≤ ·) ∧ ∀ x ∈ r, Nat.Prime x) ∧
    (∃ r s', PrimeSet.prime_factors Sieve.expand Sieve.list Sieve.new n =
        some (r, s') ∧
      r.prod = n ∧ r.Sorted (· ≤ ·) ∧ ∀ x ∈ r, Nat.Prime x) := by
  constructor
  · obtain ⟨r, s', h1, _, h3, h4, h5⟩ :=
      prime_factors_ok trialDivision_engineOK trialDivision_new_inv hn
    exact ⟨r, s', h1, h3, h4, h5⟩
  · obtain ⟨r, s', h1, _, h3, h4, h5⟩ :=
      prime_factors_ok sieve_engineOK sieve_new_inv hn
    exact ⟨r, s', h1, h3, h4, h5⟩

/-- C5 witness at `n = 12`. -/
theorem claim_C5_witness :
    (∃ r td', PrimeSet.prime_factors TrialDivision.expand TrialDivision.list
        TrialDivision.new 12 = some (r, td') ∧
      r.prod = 12 ∧ r.Sorted (· ≤ ·) ∧ ∀ x ∈ r, Nat.Prime x) ∧
    (∃ r s', PrimeSet.prime_factors Sieve.expand Sieve.list Sieve.new 12 =
        some (r, s') ∧
      r.prod = 12 ∧ r.Sorted (· ≤ ·) ∧ ∀ x ∈ r, Nat.Prime x) :=
  claim_C5 (n := 12) (by decide)

/-- C6: the cache-aware `is_prime` on a fresh engine agrees with the
cache-free free function `is_prime` at every input; the free function is
false at 0 and 1 and true at 2. -/
theorem claim_C6 :
    (∀ n, ∃ b td', PrimeSet.is_prime TrialDivision.expand TrialDivision.list
        TrialDivision.new n = some (b, td') ∧ b = is_prime n) ∧
    (∀ n, ∃ b s', PrimeSet.is_prime Sieve.expand Sieve.list Sieve.new n =
        some (b, s') ∧ b = is_prime n) ∧
    is_prime 0 = false ∧ is_prime 1 = false ∧ is_prime 2 = true := by
  refine ⟨?_, ?_, by decide, by decide, by decide⟩
  · intro n
    obtain ⟨b, s', h1, _, h3⟩ :=
      is_prime_ok trialDivision_engineOK trialDivision_new_inv n
    refine ⟨b, s', h1, ?_⟩
    rw [is_prime_eq]
    exact bool_eq_decide h3
  · intro n
    obtain ⟨b, s', h1, _, h3⟩ := is_prime_ok sieve_engineOK sieve_new_inv n
    refine ⟨b, s', h1, ?_⟩
    rw [is_prime_eq]
    exact bool_eq_decide h3

/-- C7: for input 1 all three factorisations terminate empty, and `factors`
and `factors_uniq` also do at 0 — but the claim fails for
`prime_factors(0)`: its iterator loop runs forever (the model returns `none`
at every fuel), because `0 % p == 0` and `0 / p == 0` keep the inner
division loop from ever reaching `curn == 1`. -/
theorem claim_C7 :
    (∀ (σ : Type) (expand : σ → Option σ) (lst : σ → List Nat) fuel (s : σ) i acc,
      PrimeSet.pfLoop expand lst fuel s i 0 acc = none) ∧
    PrimeSet.prime_factors TrialDivision.expand TrialDivision.list
      TrialDivision.new 0 = none ∧
    PrimeSet.prime_factors Sieve.expand Sieve.list Sieve.new 0 = none ∧
    PrimeSet.prime_factors TrialDivision.expand TrialDivision.list
      TrialDivision.new 1 = some ([], TrialDivision.new) ∧
    PrimeSet.prime_factors Sieve.expand Sieve.list Sieve.new 1 =
      some ([], Sieve.new) ∧
    factors 0 = [] ∧ factors 1 = [] ∧ factors_uniq 0 = [] ∧ factors_uniq 1 = [] := by
  refine ⟨fun σ expand lst fuel s i acc => pfLoop_zero expand lst fuel s i acc,
    ?_, ?_, rfl, rfl, rfl, rfl, rfl, rfl⟩
  · rw [PrimeSet.prime_factors, if_neg (by omega)]
    exact pfLoop_zero _ _ _ _ _ _
  · rw [PrimeSet.prime_factors, if_neg (by omega)]
    exact pfLoop_zero _ _ _ _ _ _

/-- C8 (amended): between `expand()` calls on a Sieve built by `new()`,
every cached prime `≥ 7` has exactly one pending `(composite, prime)` heap
entry, and the primes 2, 3, 5 have none. -/
theorem claim_C8 : ∀ k, ∃ s, expandN Sieve.expand k Sieve.new = some s ∧
    (∀ p ∈ s.primes, 7 ≤ p → (s.sieve.map Prod.snd).count p = 1) ∧
    (∀ p ∈ s.primes, p < 7 → (s.sieve.map Prod.snd).count p = 0) := by
  intro k
  obtain ⟨s, h1, h2⟩ := expandN_ok sieve_engineOK k Sieve.new sieve_new_inv
  obtain ⟨g1, _, _, _, _, _, _, g8, _⟩ := h2
  refine ⟨s, h1, ?_, ?_⟩
  · intro p hp h7
    rw [g8.count_eq]
    rw [List.count_filter (by simpa using h7)]
    exact List.count_eq_one_of_mem g1.2.1.nodup hp
  · intro p hp hlt
    rw [List.count_eq_zero]
    intro hmem
    obtain ⟨e, he, hee⟩ := List.mem_map.1 hmem
    have h7e := (entry_snd_mem g8 he).2
    rw [hee] at h7e
    omega

/-- C8 counterexample to the original claim: in the fresh `Sieve::new`
state the cache holds the prime 2 but the heap holds no entry for it. -/
theorem claim_C8_counterexample :
    2 ∈ Sieve.new.primes ∧ ¬ ∃ e ∈ Sieve.new.sieve, e.2 = 2 := by
  constructor
  · decide
  · rintro ⟨e, he, _⟩
    exact absurd he (List.not_mem_nil e)

/-- C9: for `x ≥ 2`, `factors_uniq(x)` is strictly increasing (hence has no
repeats) and equals the engine `prime_factors(x)` — equivalently the free
`factors(x)` — with consecutive duplicates removed. -/
theorem claim_C9 {x : Nat} (hx : 2 ≤ x) :
    factors_uniq x = List.destutter (· ≠ ·) (factors x) ∧
    (factors_uniq x).Sorted (· < ·) ∧ (factors_uniq x).Nodup ∧
    (∃ r td', PrimeSet.prime_factors TrialDivision.expand TrialDivision.list
        TrialDivision.new x = some (r, td') ∧
      factors_uniq x = List.destutter (· ≠ ·) r) ∧
    (∃ r s', PrimeSet.prime_factors Sieve.expand Sieve.list Sieve.new x =
        some (r, s') ∧
      factors_uniq x = List.destutter (· ≠ ·) r) := by
  obtain ⟨h1, h2⟩ := factors_uniq_eq hx
  refine ⟨h1, h2, h2.nodup, ?_, ?_⟩
  · obtain ⟨r, td', hr1, hr2⟩ :=
      prime_factors_eq_pfl trialDivision_engineOK trialDivision_new_inv hx
    refine ⟨r, td', hr1, ?_⟩
    rw [h1, factors_eq, hr2]
  · obtain ⟨r, s', hr1, hr2⟩ :=
      prime_factors_eq_pfl sieve_engineOK sieve_new_inv hx
    refine ⟨r, s', hr1, ?_⟩
    rw [h1, factors_eq, hr2]

/-- C9 witness at `x = 12`. -/
theorem claim_C9_witness :
    factors_uniq 12 = List.destutter (· ≠ ·) (factors 12) ∧
    (factors_uniq 12).Sorted (· < ·) ∧ (factors_uniq 12).Nodup ∧
    (∃ r td', PrimeSet.prime_factors TrialDivision.expand TrialDivision.list
        TrialDivision.new 12 = some (r, td') ∧
      factors_uniq 12 = List.destutter (· ≠ ·) r) ∧
    (∃ r s', PrimeSet.prime_factors Sieve.expand Sieve.list Sieve.new 12 =
        some (r, s') ∧
      factors_uniq 12 = List.destutter (· ≠ ·) r) :=
  claim_C9 (x := 12) (by decide)

/-- C10: a `Default`-constructed engine starts with an empty cache, unlike
`new()`; `expand()` then panics for `TrialDivision` (the `unwrap` of the
empty list's last element, modelled as `none`), while for `Sieve` the first
`expand()` appends 1, which is not prime. -/
theorem claim_C10 :
    TrialDivision.list TrialDivision.defaultState = [] ∧
    Sieve.list Sieve.defaultState = [] ∧
    TrialDivision.expand TrialDivision.defaultState = none ∧
    (∃ s, Sieve.expand Sieve.defaultState = some s ∧ Sieve.list s = [1] ∧
      ¬ Nat.Prime 1) := by
  refine ⟨rfl, rfl, rfl, ⟨_, rfl, rfl, by decide⟩⟩

end Primes
